import Mathlib

/-!
Verification of the purpleclay/x CLI presentation layer against its
specification.  The Go sources are shallowly embedded: strings are modelled
as Lean `String`s (scanning loops work over `String.data`, i.e. lists of
unicode scalar values, matching Go's `[]rune` conversions; the few places Go
indexes by byte are documented at the definition), Go slices become `List`s,
Go maps become association lists or update functions as noted, and the
external lipgloss styling library is modelled by tagging emitted text with a
style class (a `lipgloss.Style` is an opaque `String → String` renderer).
All definitions are executable and structurally recursive (scan loops carry
an explicit rune-count bound that is provably never exhausted, mirroring the
fact that every iteration of the Go loop consumes at least one rune).
-/

/-! ### Example tokenizer (src/cli/help.go) -/

/-- Token kind for one lexeme of an example line (`tokenType` in help.go). -/
inductive TokenType where
  | tokenWhitespace
  | tokenWord
  | tokenOperator
  | tokenString
  | tokenEnvAssign
  | tokenLineContinuation
deriving DecidableEq

/-- A token of an example line (`exampleToken` in help.go). -/
structure ExampleToken where
  value : String
  tokenType : TokenType
deriving DecidableEq

/-- Shell operators ordered by length, longest first (help.go). -/
def shellOperators : List String :=
  [">>", "<<", "&&", "||", "|", ">", "<", ";", "&"]

/-- Longest-first operator match at a scan position (`matchOperator` in
help.go).  Go returns the empty string when nothing matches; that sentinel is
modelled as `none`. -/
def matchOperator (cs : List Char) : Option String :=
  shellOperators.find? (fun op => op.data.isPrefixOf cs)

/-- Run of spaces and tabs at the front of the input, together with the rest
(the whitespace scan of `tokenizeExample`). -/
def spanWhitespace : List Char → List Char × List Char
  | [] => ([], [])
  | c :: cs =>
    if c = ' ' ∨ c = '\t' then
      ((spanWhitespace cs).1.cons c, (spanWhitespace cs).2)
    else ([], c :: cs)

/-- Body scan of a quoted string (the inner loop of the quote branch of
`tokenizeExample`): consumes up to and including the matching unescaped
closing quote, a backslash escaping the following character; an unterminated
string consumes the whole rest of the line. -/
def scanQuoted (quote : Char) : List Char → List Char × List Char
  | [] => ([], [])
  | c :: cs =>
    if c = quote then ([c], cs)
    else if c = '\\' then
      match cs with
      | [] => ([c], [])
      | d :: ds => (c :: d :: (scanQuoted quote ds).1, (scanQuoted quote ds).2)
    else (c :: (scanQuoted quote cs).1, (scanQuoted quote cs).2)

/-- Word scan of `tokenizeExample`: consumes characters until whitespace, a
quote, a trailing line-continuation backslash, or the start of an operator. -/
def scanWord : List Char → List Char × List Char
  | [] => ([], [])
  | c :: cs =>
    if c = ' ' ∨ c = '\t' ∨ c = '"' ∨ c = '\'' then ([], c :: cs)
    else if c = '\\' ∧ cs = [] then ([], c :: cs)
    else if (matchOperator (c :: cs)).isSome then ([], c :: cs)
    else (c :: (scanWord cs).1, (scanWord cs).2)

/-- The `allEnvOrWhitespace` predicate of help.go: every token emitted so far
is whitespace or an environment assignment. -/
def allEnvOrWhitespace (tokens : List ExampleToken) : Bool :=
  tokens.all (fun t =>
    t.tokenType = TokenType.tokenWhitespace ∨ t.tokenType = TokenType.tokenEnvAssign)

/-- The inline env-assignment test of `tokenizeExample`: the word contains
`=` at an index greater than zero (Go `strings.Index`; the byte index is
positive exactly when the rune index is) and does not start with `-`
(`strings.HasPrefix`, tested on the rune sequence). -/
def isEnvAssignWord (word : String) : Bool :=
  match word.data.findIdx? (fun c => c = '=') with
  | some idx => decide (0 < idx) && !("-".data.isPrefixOf word.data)
  | none => false

/-- Main scan loop of `tokenizeExample`.  The Go loop advances the rune index
by at least one per iteration; the `fuel` argument counts remaining loop
iterations, and callers supply one more than the number of remaining runes,
so the `fuel = 0` branch is unreachable (`tokenizeLoop_concat` and
`tokenizeLoop_fuel` make this precise). -/
def tokenizeLoop : Nat → List ExampleToken → List Char → List ExampleToken
  | 0, tokens, _ => tokens
  | _ + 1, tokens, [] => tokens
  | fuel + 1, tokens, r :: rest =>
    if r = ' ' ∨ r = '\t' then
      let p := spanWhitespace (r :: rest)
      tokenizeLoop fuel
        (tokens ++ [{ value := String.mk p.1, tokenType := TokenType.tokenWhitespace }]) p.2
    else if r = '"' ∨ r = '\'' then
      let p := scanQuoted r rest
      tokenizeLoop fuel
        (tokens ++ [{ value := String.mk (r :: p.1), tokenType := TokenType.tokenString }]) p.2
    else if r = '\\' ∧ rest = [] then
      tokenizeLoop fuel
        (tokens ++ [{ value := "\\", tokenType := TokenType.tokenLineContinuation }]) rest
    else
      match matchOperator (r :: rest) with
      | some op =>
        tokenizeLoop fuel
          (tokens ++ [{ value := op, tokenType := TokenType.tokenOperator }])
          ((r :: rest).drop op.data.length)
      | none =>
        let p := scanWord (r :: rest)
        let word := String.mk p.1
        let tks :=
          if word = "" then tokens
          else
            let tt :=
              if allEnvOrWhitespace tokens && isEnvAssignWord word then
                TokenType.tokenEnvAssign
              else TokenType.tokenWord
            tokens ++ [{ value := word, tokenType := tt }]
        tokenizeLoop fuel tks p.2

/-- The tokenizer `tokenizeExample` of help.go: lexes one line of shell
example text. -/
def tokenizeExample (line : String) : List ExampleToken :=
  tokenizeLoop (line.data.length + 1) [] line.data

/-! ### Example styler (`styleExampleLine` in src/cli/help.go)

The Go function renders each token through a `lipgloss.Style` of the theme
and concatenates the results.  Styling is external to this repository, so the
pass is modelled as emitting a list of `(style class, text)` segments in
order; the Go output is the concatenation of each segment's text rendered in
its class (unstyled writes are tagged `scPlain`). -/

/-- Style class a piece of the styled line is rendered with. -/
inductive StyleClass where
  | scPlain
  | scCommand
  | scFlagCls
  | scOperatorCls
  | scEnvVarCls
  | scEnvVarValueCls
  | scCommentCls
deriving DecidableEq

/-- One emitted piece of styled text. -/
structure StyledSeg where
  cls : StyleClass
  text : String
deriving DecidableEq

/-- Processing of a single token by the switch statement of
`styleExampleLine`, threading the `expectCommand` flag.  The splits of an
environment assignment at the first `=` (Go `strings.Index` plus slicing)
are modelled at rune granularity. -/
def styleStep (subcommands : String → Bool) (rootCmd : String)
    (token : ExampleToken) (expectCommand : Bool) : List StyledSeg × Bool :=
  match token.tokenType with
  | TokenType.tokenWhitespace => ([⟨StyleClass.scPlain, token.value⟩], expectCommand)
  | TokenType.tokenOperator =>
    ([⟨StyleClass.scOperatorCls, token.value⟩],
      if token.value = "|" ∨ token.value = ";" ∨ token.value = "&&" ∨ token.value = "||"
      then true else expectCommand)
  | TokenType.tokenString => ([⟨StyleClass.scPlain, token.value⟩], expectCommand)
  | TokenType.tokenEnvAssign =>
    (match token.value.data.findIdx? (fun c => c = '=') with
     | some idx =>
       [⟨StyleClass.scEnvVarCls, String.mk (token.value.data.take (idx + 1))⟩,
        ⟨StyleClass.scEnvVarValueCls, String.mk (token.value.data.drop (idx + 1))⟩]
     | none => [⟨StyleClass.scEnvVarCls, token.value⟩], expectCommand)
  | TokenType.tokenLineContinuation =>
    ([⟨StyleClass.scOperatorCls, token.value⟩], expectCommand)
  | TokenType.tokenWord =>
    if expectCommand ∧ token.value = rootCmd then
      ([⟨StyleClass.scCommand, token.value⟩], false)
    else if subcommands token.value then
      ([⟨StyleClass.scCommand, token.value⟩], false)
    else if expectCommand then
      ([⟨StyleClass.scCommand, token.value⟩], false)
    else if "-".data.isPrefixOf token.value.data then
      match token.value.data.findIdx? (fun c => c = '=') with
      | some idx =>
        ([⟨StyleClass.scFlagCls, String.mk (token.value.data.take (idx + 1))⟩,
          ⟨StyleClass.scPlain, String.mk (token.value.data.drop (idx + 1))⟩], expectCommand)
      | none => ([⟨StyleClass.scFlagCls, token.value⟩], expectCommand)
    else ([⟨StyleClass.scPlain, token.value⟩], expectCommand)

/-- Folds `styleStep` over a token list (the `for` loop of
`styleExampleLine`), with the given initial `expectCommand` flag. -/
def styleTokens (subcommands : String → Bool) (rootCmd : String) :
    Bool → List ExampleToken → List StyledSeg
  | _, [] => []
  | expectCommand, t :: ts =>
    (styleStep subcommands rootCmd t expectCommand).1 ++
      styleTokens subcommands rootCmd (styleStep subcommands rootCmd t expectCommand).2 ts

/-- The styler `styleExampleLine` of help.go: tokenizes the line and styles
the tokens, starting with `expectCommand = true`.  The Go `subcommands`
map-with-default-false is the `String → Bool` membership function. -/
def styleExampleLine (line rootCmd : String) (subcommands : String → Bool) : List StyledSeg :=
  styleTokens subcommands rootCmd true (tokenizeExample line)

/-! ### Tokenizer lemmas: the scans split the input, and the scan loop
consumes every rune exactly once -/

theorem spanWhitespace_append (cs : List Char) :
    (spanWhitespace cs).1 ++ (spanWhitespace cs).2 = cs := by
  induction cs with
  | nil => rfl
  | cons c cs ih =>
    by_cases h : c = ' ' ∨ c = '\t' <;> simp [spanWhitespace, h, ih]

theorem scanQuoted_append (q : Char) : ∀ cs : List Char,
    (scanQuoted q cs).1 ++ (scanQuoted q cs).2 = cs
  | [] => rfl
  | [c] => by
    by_cases h1 : c = q
    · simp [scanQuoted, h1]
    · by_cases h2 : c = '\\' <;> simp [scanQuoted, h1, h2]
  | c :: d :: ds => by
    by_cases h1 : c = q
    · simp [scanQuoted, h1]
    · by_cases h2 : c = '\\'
      · have ih := scanQuoted_append q ds
        simp only [scanQuoted, if_neg h1, if_pos h2]
        simpa [h2] using ih
      · have ih := scanQuoted_append q (d :: ds)
        simp only [scanQuoted, if_neg h1, if_neg h2]
        simpa using ih

theorem scanWord_append : ∀ cs : List Char, (scanWord cs).1 ++ (scanWord cs).2 = cs
  | [] => rfl
  | c :: cs => by
    by_cases h1 : c = ' ' ∨ c = '\t' ∨ c = '"' ∨ c = '\''
    · simp [scanWord, h1]
    · by_cases h2 : c = '\\' ∧ cs = []
      · simp [scanWord, h1, h2]
      · by_cases h3 : (matchOperator (c :: cs)).isSome
        · simp [scanWord, h1, h2, h3]
        · have ih := scanWord_append cs
          simp only [scanWord, if_neg h1, if_neg h2, if_neg h3]
          simpa using ih

theorem spanWhitespace_cons_of {c : Char} (cs : List Char) (h : c = ' ' ∨ c = '\t') :
    spanWhitespace (c :: cs) = (c :: (spanWhitespace cs).1, (spanWhitespace cs).2) := by
  simp [spanWhitespace, h]

theorem scanWord_cons_of {c : Char} (cs : List Char)
    (h1 : ¬(c = ' ' ∨ c = '\t' ∨ c = '"' ∨ c = '\''))
    (h2 : ¬(c = '\\' ∧ cs = [])) (h3 : matchOperator (c :: cs) = none) :
    scanWord (c :: cs) = (c :: (scanWord cs).1, (scanWord cs).2) := by
  simp [scanWord, h1, h2, h3]

theorem matchOperator_sound {cs : List Char} {op : String}
    (h : matchOperator cs = some op) : op ∈ shellOperators ∧ op.data <+: cs := by
  have h' : List.find? (fun op => op.data.isPrefixOf cs) shellOperators = some op := h
  have hb : op.data.isPrefixOf cs = true :=
    @List.find?_some String (fun o => o.data.isPrefixOf cs) op shellOperators h'
  exact ⟨List.mem_of_find?_eq_some h', List.isPrefixOf_iff_prefix.mp hb⟩

theorem shellOperators_pos : ∀ op ∈ shellOperators, 0 < op.data.length := by decide

theorem String.mk_cons_ne_empty (c : Char) (l : List Char) : String.mk (c :: l) ≠ "" := by
  intro h
  exact List.cons_ne_nil c l (congrArg String.data h)

/-- One iteration of the scan loop of `tokenizeExample` on a non-empty input
emits exactly one token, whose runes are the runes the iteration consumed;
the loop continues on strictly fewer runes (hence with one unit of fuel
less), and the token is classified `tokenEnvAssign` rather than `tokenWord`
exactly when all previously emitted tokens are whitespace or environment
assignments and the word matches the assignment pattern. -/
theorem tokenizeLoop_cons (tokens : List ExampleToken) (r : Char) (rest : List Char) :
    ∃ (tok : ExampleToken) (rest' : List Char),
      (∀ fuel : Nat, tokenizeLoop (fuel + 1) tokens (r :: rest)
          = tokenizeLoop fuel (tokens ++ [tok]) rest') ∧
      tok.value.data ++ rest' = r :: rest ∧
      rest'.length ≤ rest.length ∧
      ((tok.tokenType = TokenType.tokenEnvAssign →
          allEnvOrWhitespace tokens = true ∧ isEnvAssignWord tok.value = true) ∧
       (tok.tokenType = TokenType.tokenWord →
          ¬(allEnvOrWhitespace tokens = true ∧ isEnvAssignWord tok.value = true))) := by
  by_cases h1 : r = ' ' ∨ r = '\t'
  · refine ⟨⟨String.mk (spanWhitespace (r :: rest)).1, TokenType.tokenWhitespace⟩,
      (spanWhitespace (r :: rest)).2,
      fun fuel => by simp [tokenizeLoop, h1], spanWhitespace_append (r :: rest), ?_, by simp⟩
    have hx : (spanWhitespace (r :: rest)).2 = (spanWhitespace rest).2 := by
      rw [spanWhitespace_cons_of rest h1]
    have h := congrArg List.length (spanWhitespace_append rest)
    simp only [List.length_append] at h
    rw [hx]
    omega
  · by_cases h2 : r = '"' ∨ r = '\''
    · refine ⟨⟨String.mk (r :: (scanQuoted r rest).1), TokenType.tokenString⟩,
        (scanQuoted r rest).2,
        fun fuel => by simp [tokenizeLoop, h1, h2], ?_, ?_, by simp⟩
      · simpa using scanQuoted_append r rest
      · have h := congrArg List.length (scanQuoted_append r rest)
        simp only [List.length_append] at h
        omega
    · by_cases h3 : r = '\\' ∧ rest = []
      · refine ⟨⟨"\\", TokenType.tokenLineContinuation⟩, rest,
          fun fuel => by simp [tokenizeLoop, h1, h2, h3], ?_, le_refl _, by simp⟩
        obtain ⟨rfl, rfl⟩ := h3
        rfl
      · cases hm : matchOperator (r :: rest) with
        | some op =>
          obtain ⟨hmem, t, ht⟩ := matchOperator_sound hm
          refine ⟨⟨op, TokenType.tokenOperator⟩, t, fun fuel => ?_, ht, ?_, by simp⟩
          · have hdrop : (r :: rest).drop op.length = t := by
              have hl : op.length = op.data.length := rfl
              rw [hl, ← ht]
              exact List.drop_left op.data t
            simp [tokenizeLoop, h1, h2, h3, hm, hdrop]
          · have hpos := shellOperators_pos op hmem
            have h := congrArg List.length ht
            simp only [List.length_append, List.length_cons] at h
            omega
        | none =>
          have h1' : ¬(r = ' ' ∨ r = '\t' ∨ r = '"' ∨ r = '\'') := by tauto
          have hsw := scanWord_cons_of rest h1' h3 hm
          have hne : String.mk (scanWord (r :: rest)).1 ≠ "" := by
            rw [hsw]
            exact String.mk_cons_ne_empty _ _
          have hlen : (scanWord (r :: rest)).2.length ≤ rest.length := by
            have hx : (scanWord (r :: rest)).2 = (scanWord rest).2 := by rw [hsw]
            have h := congrArg List.length (scanWord_append rest)
            simp only [List.length_append] at h
            rw [hx]
            omega
          by_cases hc : (allEnvOrWhitespace tokens &&
              isEnvAssignWord (String.mk (scanWord (r :: rest)).1)) = true
          · refine ⟨⟨String.mk (scanWord (r :: rest)).1, TokenType.tokenEnvAssign⟩,
              (scanWord (r :: rest)).2, fun fuel => ?_, scanWord_append (r :: rest), hlen, ?_, ?_⟩
            · simp [tokenizeLoop, h1, h2, h3, hm, hne, hc]
            · intro _
              simpa [Bool.and_eq_true] using hc
            · exact fun hw => nomatch hw
          · refine ⟨⟨String.mk (scanWord (r :: rest)).1, TokenType.tokenWord⟩,
              (scanWord (r :: rest)).2, fun fuel => ?_, scanWord_append (r :: rest), hlen, ?_, ?_⟩
            · simp [tokenizeLoop, h1, h2, h3, hm, hne, hc]
            · exact fun he => nomatch he
            · intro _ hb
              rw [Bool.and_eq_true] at hc
              exact hc ⟨hb.1, hb.2⟩

theorem tokenizeLoop_nil (fuel : Nat) (tokens : List ExampleToken) :
    tokenizeLoop fuel tokens [] = tokens := by
  cases fuel <;> simp [tokenizeLoop]

theorem tokenizeLoop_concat_aux (n : Nat) : ∀ cs : List Char, cs.length ≤ n →
    ∀ (fuel : Nat) (tokens : List ExampleToken), cs.length < fuel →
    ((tokenizeLoop fuel tokens cs).map (fun t => t.value.data)).flatten =
      (tokens.map (fun t => t.value.data)).flatten ++ cs := by
  induction n with
  | zero =>
    intro cs hcs fuel tokens _
    have : cs = [] := List.length_eq_zero.mp (Nat.le_zero.mp hcs)
    subst this
    simp [tokenizeLoop_nil]
  | succ n ih =>
    intro cs hcs fuel tokens hf
    cases cs with
    | nil => simp [tokenizeLoop_nil]
    | cons r rest =>
      obtain ⟨tok, rest', hstep, hjoin, hlen, -⟩ := tokenizeLoop_cons tokens r rest
      cases fuel with
      | zero => exact absurd hf (by omega)
      | succ fuel =>
        rw [hstep fuel]
        have hcs' : rest'.length ≤ n := by simp only [List.length_cons] at hcs; omega
        have hf' : rest'.length < fuel := by simp only [List.length_cons] at hf; omega
        rw [ih rest' hcs' fuel (tokens ++ [tok]) hf']
        rw [List.map_append, List.flatten_append]
        simp only [List.map_cons, List.map_nil, List.flatten_cons, List.flatten_nil,
          List.append_nil]
        rw [List.append_assoc, hjoin]

theorem tokenizeLoop_fuel_aux (n : Nat) : ∀ cs : List Char, cs.length ≤ n →
    ∀ (f₁ f₂ : Nat) (tokens : List ExampleToken), cs.length < f₁ → cs.length < f₂ →
    tokenizeLoop f₁ tokens cs = tokenizeLoop f₂ tokens cs := by
  induction n with
  | zero =>
    intro cs hcs f₁ f₂ tokens _ _
    have : cs = [] := List.length_eq_zero.mp (Nat.le_zero.mp hcs)
    subst this
    simp [tokenizeLoop_nil]
  | succ n ih =>
    intro cs hcs f₁ f₂ tokens h1 h2
    cases cs with
    | nil => simp [tokenizeLoop_nil]
    | cons r rest =>
      obtain ⟨tok, rest', hstep, -, hlen, -⟩ := tokenizeLoop_cons tokens r rest
      cases f₁ with
      | zero => exact absurd h1 (by omega)
      | succ f₁ =>
        cases f₂ with
        | zero => exact absurd h2 (by omega)
        | succ f₂ =>
          rw [hstep f₁, hstep f₂]
          have hcs' : rest'.length ≤ n := by simp only [List.length_cons] at hcs; omega
          exact ih rest' hcs' f₁ f₂ (tokens ++ [tok])
            (by simp only [List.length_cons] at h1; omega)
            (by simp only [List.length_cons] at h2; omega)

/-- Invariant of the token stream produced by `tokenizeExample`: a token is
an environment assignment only if everything before it is whitespace or an
environment assignment and it matches the assignment pattern, and a plain
word never satisfies both of those conditions. -/
def envInv (out : List ExampleToken) : Prop :=
  ∀ (i : Nat) (t : ExampleToken), out[i]? = some t →
    (t.tokenType = TokenType.tokenEnvAssign →
      allEnvOrWhitespace (out.take i) = true ∧ isEnvAssignWord t.value = true) ∧
    (t.tokenType = TokenType.tokenWord →
      ¬(allEnvOrWhitespace (out.take i) = true ∧ isEnvAssignWord t.value = true))

theorem envInv_append {tokens : List ExampleToken} {tok : ExampleToken}
    (h : envInv tokens)
    (he : tok.tokenType = TokenType.tokenEnvAssign →
      allEnvOrWhitespace tokens = true ∧ isEnvAssignWord tok.value = true)
    (hw : tok.tokenType = TokenType.tokenWord →
      ¬(allEnvOrWhitespace tokens = true ∧ isEnvAssignWord tok.value = true)) :
    envInv (tokens ++ [tok]) := by
  intro i t hi
  rcases lt_trichotomy i tokens.length with hlt | heq | hgt
  · rw [List.getElem?_append, if_pos hlt] at hi
    rw [List.take_append_of_le_length (le_of_lt hlt)]
    exact h i t hi
  · subst heq
    rw [List.getElem?_append, if_neg (lt_irrefl _), Nat.sub_self] at hi
    simp only [List.getElem?_cons_zero, Option.some.injEq] at hi
    subst hi
    rw [List.take_append_of_le_length (le_refl _), List.take_length]
    exact ⟨he, hw⟩
  · rw [List.getElem?_append, if_neg (by omega)] at hi
    have : i - tokens.length ≥ 1 := by omega
    rw [List.getElem?_cons] at hi
    rw [if_neg (by omega)] at hi
    simp at hi

theorem tokenizeLoop_envInv (n : Nat) : ∀ cs : List Char, cs.length ≤ n →
    ∀ (fuel : Nat) (tokens : List ExampleToken), envInv tokens →
    envInv (tokenizeLoop fuel tokens cs) := by
  induction n with
  | zero =>
    intro cs hcs fuel tokens h
    have : cs = [] := List.length_eq_zero.mp (Nat.le_zero.mp hcs)
    subst this
    rw [tokenizeLoop_nil]
    exact h
  | succ n ih =>
    intro cs hcs fuel tokens h
    cases cs with
    | nil => rw [tokenizeLoop_nil]; exact h
    | cons r rest =>
      cases fuel with
      | zero => exact h
      | succ fuel =>
        obtain ⟨tok, rest', hstep, -, hlen, hcls⟩ := tokenizeLoop_cons tokens r rest
        rw [hstep fuel]
        have hcs' : rest'.length ≤ n := by simp only [List.length_cons] at hcs; omega
        exact ih rest' hcs' fuel (tokens ++ [tok]) (envInv_append h hcls.1 hcls.2)

theorem matchOperator_two (a b : Char) (t : List Char) :
    matchOperator (a :: b :: t) = matchOperator [a, b] := by
  simp [matchOperator, shellOperators, List.find?, List.isPrefixOf]

theorem matchOperator_longest (cs : List Char) (op : String)
    (hmem : op ∈ shellOperators) (hpre : op.data <+: cs) :
    ∃ best, matchOperator cs = some best ∧ best ∈ shellOperators ∧
      best.data <+: cs ∧ op.data.length ≤ best.data.length := by
  simp only [shellOperators, List.mem_cons, List.not_mem_nil, or_false] at hmem
  rcases hmem with rfl | rfl | rfl | rfl | rfl | rfl | rfl | rfl | rfl
  · obtain ⟨t, rfl⟩ := hpre
    exact ⟨">>", by rw [show (">>").data ++ t = '>' :: '>' :: t from rfl, matchOperator_two]; decide,
      by decide, ⟨t, rfl⟩, le_refl _⟩
  · obtain ⟨t, rfl⟩ := hpre
    exact ⟨"<<", by rw [show ("<<").data ++ t = '<' :: '<' :: t from rfl, matchOperator_two]; decide,
      by decide, ⟨t, rfl⟩, le_refl _⟩
  · obtain ⟨t, rfl⟩ := hpre
    exact ⟨"&&", by rw [show ("&&").data ++ t = '&' :: '&' :: t from rfl, matchOperator_two]; decide,
      by decide, ⟨t, rfl⟩, le_refl _⟩
  · obtain ⟨t, rfl⟩ := hpre
    exact ⟨"||", by rw [show ("||").data ++ t = '|' :: '|' :: t from rfl, matchOperator_two]; decide,
      by decide, ⟨t, rfl⟩, le_refl _⟩
  · obtain ⟨t, rfl⟩ := hpre
    rcases t with - | ⟨c, t⟩
    · exact ⟨"|", by decide, by decide, ⟨[], rfl⟩, le_refl _⟩
    · by_cases hc : c = '|'
      · subst hc
        exact ⟨"||", by rw [show ("|").data ++ '|' :: t = '|' :: '|' :: t from rfl,
            matchOperator_two]; decide, by decide, ⟨t, rfl⟩, by decide⟩
      · have hc' : ¬('|' = c) := fun h => hc h.symm
        refine ⟨"|", ?_, by decide, ⟨c :: t, rfl⟩, le_refl _⟩
        rw [show ("|").data ++ c :: t = '|' :: c :: t from rfl, matchOperator_two]
        simp [matchOperator, shellOperators, List.find?, List.isPrefixOf, hc']
        rw [beq_eq_false_iff_ne.mpr hc']
  · obtain ⟨t, rfl⟩ := hpre
    rcases t with - | ⟨c, t⟩
    · exact ⟨">", by decide, by decide, ⟨[], rfl⟩, le_refl _⟩
    · by_cases hc : c = '>'
      · subst hc
        exact ⟨">>", by rw [show (">").data ++ '>' :: t = '>' :: '>' :: t from rfl,
            matchOperator_two]; decide, by decide, ⟨t, rfl⟩, by decide⟩
      · have hc' : ¬('>' = c) := fun h => hc h.symm
        refine ⟨">", ?_, by decide, ⟨c :: t, rfl⟩, le_refl _⟩
        rw [show (">").data ++ c :: t = '>' :: c :: t from rfl, matchOperator_two]
        simp [matchOperator, shellOperators, List.find?, List.isPrefixOf, hc']
        rw [beq_eq_false_iff_ne.mpr hc']
  · obtain ⟨t, rfl⟩ := hpre
    rcases t with - | ⟨c, t⟩
    · exact ⟨"<", by decide, by decide, ⟨[], rfl⟩, le_refl _⟩
    · by_cases hc : c = '<'
      · subst hc
        exact ⟨"<<", by rw [show ("<").data ++ '<' :: t = '<' :: '<' :: t from rfl,
            matchOperator_two]; decide, by decide, ⟨t, rfl⟩, by decide⟩
      · have hc' : ¬('<' = c) := fun h => hc h.symm
        refine ⟨"<", ?_, by decide, ⟨c :: t, rfl⟩, le_refl _⟩
        rw [show ("<").data ++ c :: t = '<' :: c :: t from rfl, matchOperator_two]
        simp [matchOperator, shellOperators, List.find?, List.isPrefixOf, hc']
        rw [beq_eq_false_iff_ne.mpr hc']
  · obtain ⟨t, rfl⟩ := hpre
    rcases t with - | ⟨c, t⟩
    · exact ⟨";", by decide, by decide, ⟨[], rfl⟩, le_refl _⟩
    · refine ⟨";", ?_, by decide, ⟨c :: t, rfl⟩, le_refl _⟩
      rw [show (";").data ++ c :: t = ';' :: c :: t from rfl, matchOperator_two]
      simp [matchOperator, shellOperators, List.find?, List.isPrefixOf]
  · obtain ⟨t, rfl⟩ := hpre
    rcases t with - | ⟨c, t⟩
    · exact ⟨"&", by decide, by decide, ⟨[], rfl⟩, le_refl _⟩
    · by_cases hc : c = '&'
      · subst hc
        exact ⟨"&&", by rw [show ("&").data ++ '&' :: t = '&' :: '&' :: t from rfl,
            matchOperator_two]; decide, by decide, ⟨t, rfl⟩, by decide⟩
      · have hc' : ¬('&' = c) := fun h => hc h.symm
        refine ⟨"&", ?_, by decide, ⟨c :: t, rfl⟩, le_refl _⟩
        rw [show ("&").data ++ c :: t = '&' :: c :: t from rfl, matchOperator_two]
        simp [matchOperator, shellOperators, List.find?, List.isPrefixOf, hc']
        rw [beq_eq_false_iff_ne.mpr hc']

/-- C10: tokenization loses no text: concatenating the `value` fields of the
tokens of `tokenizeExample line`, in order, reproduces `line` exactly (stated
both on strings and on the underlying rune lists), and the scan loop
terminates by consuming its input: any fuel bound beyond the rune count
yields the same result, so the Go loop (which has no bound) finishes within
`length + 1` iterations on every input. -/
theorem C10_tokenize_lossless :
    (∀ line : String,
      String.join ((tokenizeExample line).map (fun t => t.value)) = line) ∧
    (∀ line : String,
      ((tokenizeExample line).map (fun t => t.value.data)).flatten = line.data) ∧
    (∀ (line : String) (fuel : Nat), line.data.length < fuel →
      tokenizeLoop fuel [] line.data = tokenizeExample line) := by
  have hdata : ∀ line : String,
      ((tokenizeExample line).map (fun t => t.value.data)).flatten = line.data := by
    intro line
    have h := tokenizeLoop_concat_aux line.data.length line.data (le_refl _)
      (line.data.length + 1) [] (by omega)
    simpa [tokenizeExample] using h
  refine ⟨?_, hdata, ?_⟩
  · intro line
    apply String.ext
    rw [String.data_join, List.map_map]
    exact hdata line
  · intro line fuel h
    exact tokenizeLoop_fuel_aux line.data.length line.data (le_refl _) fuel
      (line.data.length + 1) [] h (by omega)

/-- Witness for C10: the fuel-irrelevance part applied at a concrete input
with concrete oversupplied fuel. -/
theorem C10_tokenize_lossless_witness :
    tokenizeLoop 20 [] ("cmd".data) = tokenizeExample "cmd" :=
  C10_tokenize_lossless.2.2 "cmd" 20 (by decide)

/-- C2: at every scan position handled by the operator rule, the match is the
longest operator of `shellOperators` that prefixes the remaining input (part
one: any matching operator is dominated by the returned one, so `&&` is never
split into two `&`; part two: the returned operator really is a prefix from
the set); and tokenizing `"cmd | grep foo"` yields exactly the claimed
word/whitespace/operator sequence. -/
theorem C2_operator_longest_match :
    (∀ (cs : List Char) (op : String), op ∈ shellOperators → op.data <+: cs →
      ∃ best, matchOperator cs = some best ∧ best ∈ shellOperators ∧ best.data <+: cs ∧
        op.data.length ≤ best.data.length) ∧
    (∀ (cs : List Char) (op : String), matchOperator cs = some op →
      op ∈ shellOperators ∧ op.data <+: cs) ∧
    tokenizeExample "cmd | grep foo" =
      [⟨"cmd", TokenType.tokenWord⟩, ⟨" ", TokenType.tokenWhitespace⟩,
       ⟨"|", TokenType.tokenOperator⟩, ⟨" ", TokenType.tokenWhitespace⟩,
       ⟨"grep", TokenType.tokenWord⟩, ⟨" ", TokenType.tokenWhitespace⟩,
       ⟨"foo", TokenType.tokenWord⟩] :=
  ⟨fun cs op h1 h2 => matchOperator_longest cs op h1 h2,
   fun _ _ h => matchOperator_sound h, by decide⟩

/-- Witness for C2: at input `&&x` the single operator `&` also matches, and
the returned longest match dominates it. -/
theorem C2_operator_longest_match_witness :
    ∃ best, matchOperator ['&', '&', 'x'] = some best ∧ best ∈ shellOperators ∧
      best.data <+: ['&', '&', 'x'] ∧ ("&").data.length ≤ best.data.length :=
  C2_operator_longest_match.1 ['&', '&', 'x'] "&" (by decide) (by decide)

/-- C3: a token of `tokenizeExample` is classified as an environment
assignment exactly when every token emitted before it on the line is
whitespace or an environment assignment and its text contains `=` at a
positive index without starting with `-` (`isEnvAssignWord`); a word token
never satisfies both conditions; and `"VAR=value cmd"` tokenizes to an
environment assignment followed by whitespace and a plain word. -/
theorem C3_env_assign_classification :
    (∀ (line : String) (i : Nat) (t : ExampleToken), (tokenizeExample line)[i]? = some t →
      (t.tokenType = TokenType.tokenEnvAssign →
        allEnvOrWhitespace ((tokenizeExample line).take i) = true ∧
          isEnvAssignWord t.value = true) ∧
      (t.tokenType = TokenType.tokenWord →
        ¬(allEnvOrWhitespace ((tokenizeExample line).take i) = true ∧
          isEnvAssignWord t.value = true))) ∧
    tokenizeExample "VAR=value cmd" =
      [⟨"VAR=value", TokenType.tokenEnvAssign⟩, ⟨" ", TokenType.tokenWhitespace⟩,
       ⟨"cmd", TokenType.tokenWord⟩] := by
  constructor
  · intro line i t h
    have hinv : envInv (tokenizeExample line) :=
      tokenizeLoop_envInv line.data.length line.data (le_refl _) (line.data.length + 1) []
        (fun i t h => by simp at h)
    exact hinv i t h
  · decide

/-- Witness for C3: the classification facts extracted at the concrete line
`A=1 b` for its first token. -/
theorem C3_env_assign_classification_witness :
    isEnvAssignWord "A=1" = true ∧
      allEnvOrWhitespace ((tokenizeExample "A=1 b").take 0) = true := by
  have h := C3_env_assign_classification.1 "A=1 b" 0
    ⟨"A=1", TokenType.tokenEnvAssign⟩ (by decide)
  exact ⟨(h.1 rfl).2, (h.1 rfl).1⟩

/-- C1: the styler starts with the command-expectation flag set; an operator
token whose value is `|`, `;`, `&&` or `||` leaves the flag set; a word token
processed while the flag is set is emitted as a single command-styled segment
and clears the flag, whatever its text (root name, subcommand or neither);
consequently styling `"cmd1 && cmd2"` with root command `"cmd1"` (and no
subcommands) marks both `cmd1` and `cmd2` command-styled. -/
theorem C1_style_command_expectation :
    (∀ (line rootCmd : String) (subcommands : String → Bool),
      styleExampleLine line rootCmd subcommands
        = styleTokens subcommands rootCmd true (tokenizeExample line)) ∧
    (∀ (subcommands : String → Bool) (rootCmd : String) (t : ExampleToken) (b : Bool),
      t.tokenType = TokenType.tokenOperator →
      (t.value = "|" ∨ t.value = ";" ∨ t.value = "&&" ∨ t.value = "||") →
      (styleStep subcommands rootCmd t b).2 = true) ∧
    (∀ (subcommands : String → Bool) (rootCmd : String) (t : ExampleToken),
      t.tokenType = TokenType.tokenWord →
      styleStep subcommands rootCmd t true = ([⟨StyleClass.scCommand, t.value⟩], false)) ∧
    styleExampleLine "cmd1 && cmd2" "cmd1" (fun _ => false)
      = [⟨StyleClass.scCommand, "cmd1"⟩, ⟨StyleClass.scPlain, " "⟩,
         ⟨StyleClass.scOperatorCls, "&&"⟩, ⟨StyleClass.scPlain, " "⟩,
         ⟨StyleClass.scCommand, "cmd2"⟩] := by
  refine ⟨fun _ _ _ => rfl, ?_, ?_, by decide⟩
  · intro subcommands rootCmd t b ht hv
    obtain ⟨v, tt⟩ := t
    simp only at ht
    subst ht
    simp only [styleStep]
    rw [if_pos hv]
  · intro subcommands rootCmd t ht
    obtain ⟨v, tt⟩ := t
    simp only at ht
    subst ht
    by_cases hroot : v = rootCmd
    · simp [styleStep, hroot]
    · by_cases hsub : subcommands v = true
      · simp [styleStep, hroot, hsub]
      · simp [styleStep, hroot, hsub]

/-- Witness for C1: the operator part at `&&` and the word part at a word
that is neither the root command nor a subcommand. -/
theorem C1_style_command_expectation_witness :
    (styleStep (fun _ => false) "x" ⟨"&&", TokenType.tokenOperator⟩ false).2 = true ∧
      styleStep (fun _ => false) "x" ⟨"ls", TokenType.tokenWord⟩ true
        = ([⟨StyleClass.scCommand, "ls"⟩], false) :=
  ⟨C1_style_command_expectation.2.1 _ _ _ _ rfl (Or.inr (Or.inr (Or.inl rfl))),
   C1_style_command_expectation.2.2.1 _ _ _ rfl⟩

/-! ### Text reflow utility (`wrapText` / `unfill`)

Go's `unfill` works on the string's runes; all the substring operations it
uses (`ReplaceAll` with two-rune patterns, `Split` on `"\n\n"`,
`HasSuffix`/`TrimSuffix` with `"\n"`, `TrimSpace`) are embedded as
structurally recursive functions on `List Char`.  Go `strings.ReplaceAll`
and `strings.Split` scan left to right matching non-overlapping occurrences,
which the two-cell pattern matches below reproduce. -/

/-- Whitespace predicate of Go `unicode.IsSpace`, restricted to the code
points below `U+0100` (the higher Unicode space code points of the pattern
table are omitted; no claim involves them). -/
def isGoSpace (c : Char) : Bool :=
  c = ' ' || c = '\t' || c = '\n' || c = '\x0B' || c = '\x0C' || c = '\r' ||
    c = '\u0085' || c = '\u00A0'

/-- Go `strings.Contains(s, ⟨a,b⟩)` for a two-character pattern. -/
def hasPair (a b : Char) : List Char → Bool
  | c :: d :: rest => (c == a && d == b) || hasPair a b (d :: rest)
  | _ => false

/-- Go `strings.ReplaceAll(s, ⟨a,b⟩, ⟨c⟩)` for a two-character pattern and a
one-character replacement: left-to-right, non-overlapping. -/
def replacePair (a b c : Char) : List Char → List Char
  | x :: y :: rest =>
    if x = a ∧ y = b then c :: replacePair a b c rest
    else x :: replacePair a b c (y :: rest)
  | l => l

/-- The double-space collapsing loop of `unfill`
(`for strings.Contains(para, "  ") { para = ReplaceAll(para, "  ", " ") }`).
Each pass over a paragraph that still contains `"  "` strictly shrinks it, so
the loop runs at most `length` times; the `fuel` argument counts remaining
passes and callers supply `length + 1`, making the `fuel = 0` branch
unreachable (`collapseSpaces_no_pair`). -/
def collapseSpaces : Nat → List Char → List Char
  | 0, s => s
  | fuel + 1, s =>
    if hasPair ' ' ' ' s then collapseSpaces fuel (replacePair ' ' ' ' ' ' s) else s

/-- Go `strings.Split(s, "\n\n")`. -/
def splitParas : List Char → List (List Char)
  | [] => [[]]
  | [c] => [[c]]
  | c :: d :: rest =>
    if c = '\n' ∧ d = '\n' then [] :: splitParas rest
    else
      match splitParas (d :: rest) with
      | [] => [[c]]
      | p :: ps => (c :: p) :: ps

/-- Go `strings.TrimSpace`. -/
def trimSpaceL (s : List Char) : List Char :=
  ((s.dropWhile isGoSpace).reverse.dropWhile isGoSpace).reverse

/-- The per-paragraph body of `unfill`'s loop: replace `"\n"` by `" "`,
collapse double spaces to single ones, trim surrounding whitespace. -/
def processPara (p : List Char) : List Char :=
  let q := p.map (fun ch => if ch = '\n' then ' ' else ch)
  trimSpaceL (collapseSpaces (q.length + 1) q)

/-- Rune-level body of `unfill` (part_001): normalize `"\r\n"` to `"\n"`,
remember and strip one trailing newline, split into paragraphs on blank
lines, reflow each paragraph, rejoin, and restore the trailing newline if
the result is non-empty. -/
def unfillL (s : List Char) : List Char :=
  let s1 := replacePair '\r' '\n' '\n' s
  let hasTrailingNewline := s1.getLast? = some '\n'
  let s2 := if s1.getLast? = some '\n' then s1.dropLast else s1
  let paras := (splitParas s2).map processPara
  let r := List.intercalate ['\n', '\n'] paras
  if hasTrailingNewline ∧ r ≠ [] then r ++ ['\n'] else r

/-- The `unfill` function of part_001. -/
def unfill (s : String) : String :=
  String.mk (unfillL s.data)

/-- The `wrapText` function of part_001.  The external
`muesli/reflow/wordwrap.String` word-wrapper is a parameter. -/
def wrapText (wordwrapString : String → Int → String) (s : String) (width : Int) : String :=
  if width ≤ 0 then s else wordwrapString (unfill s) width

/-- Counterexample for C5: for non-positive width `wrapText` returns its
input unchanged, which differs from the reflowed (`unfill`) text whenever the
input is not already reflowed. -/
theorem C5_wrap_counterexample :
    wrapText (fun s _ => s) "hello\nworld" 0 ≠ unfill "hello\nworld" := by decide

/-- C5 (amended): for every width `w ≤ 0`, `wrapText` disables wrapping and
returns the input text unchanged — the reflow normalization is skipped as
well, so the result equals `unfill` of the input only when the input is
already reflowed. -/
theorem C5_wrap_nonpositive :
    ∀ (wordwrapString : String → Int → String) (s : String) (w : Int),
      w ≤ 0 → wrapText wordwrapString s w = s := by
  intro f s w h
  simp [wrapText, h]

/-- Witness for C5 (amended) at concrete input. -/
theorem C5_wrap_nonpositive_witness :
    wrapText (fun s _ => s) "a\nb" 0 = "a\nb" :=
  C5_wrap_nonpositive (fun s _ => s) "a\nb" 0 (by decide)

/-! ### Lemmas about the reflow pipeline, leading to the idempotence
analysis of `unfill` -/

theorem hasPair_eq_true_iff {a b : Char} : ∀ {l : List Char},
    hasPair a b l = true ↔ [a, b] <:+: l
  | [] => by simp [hasPair]
  | [c] => by
    simp only [hasPair]
    constructor
    · intro h; cases h
    · intro h
      have := h.length_le
      simp at this
  | c :: d :: l => by
    rw [hasPair]
    constructor
    · intro h
      rcases Bool.or_eq_true_iff.mp h with h | h
      · rcases Bool.and_eq_true_iff.mp h with ⟨h1, h2⟩
        rw [beq_iff_eq] at h1 h2
        subst h1; subst h2
        exact ⟨[], l, rfl⟩
      · exact (hasPair_eq_true_iff.mp h).trans (List.infix_cons (List.infix_refl _))
    · intro h
      rcases h with ⟨pre, post, hpp⟩
      cases pre with
      | nil =>
        simp only [List.nil_append, List.cons_append] at hpp
        injection hpp with h1 h2
        injection h2 with h2 h3
        subst h1; subst h2
        simp
      | cons x pre =>
        apply Bool.or_eq_true_iff.mpr
        right
        apply hasPair_eq_true_iff.mpr
        injection hpp with h1 h2
        exact ⟨pre, post, h2⟩

theorem hasPair_of_infix {a b : Char} {l m : List Char} (hinf : l <:+: m)
    (h : hasPair a b m = false) : hasPair a b l = false := by
  by_contra hc
  rw [Bool.not_eq_false, hasPair_eq_true_iff] at hc
  rw [← Bool.not_eq_true, hasPair_eq_true_iff] at h
  exact h (hc.trans hinf)

theorem hasPair_false_of_not_mem {a b : Char} {l : List Char} (h : b ∉ l) :
    hasPair a b l = false := by
  rw [← Bool.not_eq_true, hasPair_eq_true_iff]
  intro hinf
  exact h (hinf.subset (by simp))

theorem replacePair_of_no_pair {a b c : Char} : ∀ {l : List Char},
    hasPair a b l = false → replacePair a b c l = l
  | [], _ => rfl
  | [x], _ => rfl
  | x :: y :: l, h => by
    rw [hasPair] at h
    rcases Bool.or_eq_false_iff.mp h with ⟨h1, h2⟩
    have hxy : ¬(x = a ∧ y = b) := by
      rintro ⟨rfl, rfl⟩
      simp at h1
    rw [replacePair, if_neg hxy, replacePair_of_no_pair h2]

theorem replacePair_sublist (a b : Char) : ∀ l : List Char,
    List.Sublist (replacePair a b b l) l
  | [] => List.Sublist.refl _
  | [x] => List.Sublist.refl _
  | x :: y :: l => by
    rw [replacePair]
    split
    · next h =>
      rw [h.1, h.2]
      exact List.Sublist.cons _ (List.Sublist.cons₂ _ (replacePair_sublist a b l))
    · exact List.Sublist.cons₂ _ (replacePair_sublist a b (y :: l))

theorem replacePair_length_le (a b c : Char) : ∀ l : List Char,
    (replacePair a b c l).length ≤ l.length
  | [] => le_refl _
  | [x] => le_refl _
  | x :: y :: l => by
    rw [replacePair]
    split
    · have := replacePair_length_le a b c l
      simp only [List.length_cons]
      omega
    · have := replacePair_length_le a b c (y :: l)
      simp only [List.length_cons] at this ⊢
      omega

theorem replacePair_length_lt {a b c : Char} : ∀ l : List Char,
    hasPair a b l = true → (replacePair a b c l).length < l.length
  | [], h => by simp [hasPair] at h
  | [x], h => by simp [hasPair] at h
  | x :: y :: l, h => by
    rw [replacePair]
    split
    · have := replacePair_length_le a b c l
      simp only [List.length_cons]
      omega
    · next hxy =>
      rw [hasPair] at h
      rcases Bool.or_eq_true_iff.mp h with h1 | h2
      · refine absurd ?_ hxy
        rcases Bool.and_eq_true_iff.mp h1 with ⟨e1, e2⟩
        exact ⟨beq_iff_eq.mp e1, beq_iff_eq.mp e2⟩
      · have := @replacePair_length_lt a b c (y :: l) h2
        simp only [List.length_cons] at this ⊢
        omega

theorem collapseSpaces_of_no_pair {fuel : Nat} {s : List Char}
    (h : hasPair ' ' ' ' s = false) : collapseSpaces fuel s = s := by
  cases fuel with
  | zero => rfl
  | succ fuel => rw [collapseSpaces, if_neg (by simp [h])]

theorem collapseSpaces_sublist : ∀ (fuel : Nat) (s : List Char),
    List.Sublist (collapseSpaces fuel s) s
  | 0, _ => List.Sublist.refl _
  | fuel + 1, s => by
    rw [collapseSpaces]
    split
    · exact (collapseSpaces_sublist fuel _).trans (replacePair_sublist ' ' ' ' s)
    · exact List.Sublist.refl _

theorem collapseSpaces_no_pair : ∀ (fuel : Nat) (s : List Char), s.length ≤ fuel →
    hasPair ' ' ' ' (collapseSpaces fuel s) = false
  | 0, s, h => by
    have hnil : s = [] := List.length_eq_zero.mp (Nat.le_zero.mp h)
    subst hnil
    rfl
  | fuel + 1, s, h => by
    rw [collapseSpaces]
    by_cases hp : hasPair ' ' ' ' s = true
    · rw [if_pos hp]
      refine collapseSpaces_no_pair fuel _ ?_
      have := @replacePair_length_lt ' ' ' ' ' ' s hp
      omega
    · rw [if_neg hp]
      simpa using hp

theorem dropWhile_head_false {p : Char → Bool} : ∀ {l : List Char} {x : Char},
    (l.dropWhile p).head? = some x → p x = false := by
  intro l
  induction l with
  | nil => intro x h; simp [List.dropWhile] at h
  | cons c t ih =>
    intro x h
    rw [List.dropWhile_cons] at h
    by_cases hc : p c = true
    · rw [if_pos hc] at h
      exact ih h
    · rw [if_neg hc] at h
      simp only [List.head?_cons, Option.some.injEq] at h
      subst h
      simpa using hc

theorem dropWhile_eq_self_of_head {p : Char → Bool} {l : List Char}
    (h : ∀ x, l.head? = some x → p x = false) : l.dropWhile p = l := by
  cases l with
  | nil => rfl
  | cons c t =>
    rw [List.dropWhile_cons, if_neg]
    simp [h c rfl]

theorem dropWhile_idem (p : Char → Bool) (l : List Char) :
    (l.dropWhile p).dropWhile p = l.dropWhile p :=
  dropWhile_eq_self_of_head (fun _ h => dropWhile_head_false h)

theorem trimSpaceL_prefix_dropWhile (s : List Char) :
    List.IsPrefix (trimSpaceL s) (s.dropWhile isGoSpace) := by
  rw [← List.reverse_suffix]
  have h2 : List.IsSuffix ((s.dropWhile isGoSpace).reverse.dropWhile isGoSpace)
      (s.dropWhile isGoSpace).reverse := List.dropWhile_suffix _
  simpa [trimSpaceL] using h2

theorem trimSpaceL_infix_self (s : List Char) : List.IsInfix (trimSpaceL s) s := by
  have h1 : List.IsSuffix (s.dropWhile isGoSpace) s := List.dropWhile_suffix _
  exact (trimSpaceL_prefix_dropWhile s).isInfix.trans h1.isInfix

theorem prefix_head? {l m : List Char} (h : List.IsPrefix l m) {x : Char}
    (hx : l.head? = some x) : m.head? = some x := by
  obtain ⟨t, rfl⟩ := h
  cases l with
  | nil => simp at hx
  | cons c l => simpa using hx

theorem trimSpaceL_head_false {s : List Char} {x : Char}
    (h : (trimSpaceL s).head? = some x) : isGoSpace x = false :=
  dropWhile_head_false (prefix_head? (trimSpaceL_prefix_dropWhile s) h)

theorem trimSpaceL_getLast_false {s : List Char} {x : Char}
    (h : (trimSpaceL s).getLast? = some x) : isGoSpace x = false := by
  rw [← List.head?_reverse] at h
  rw [trimSpaceL, List.reverse_reverse] at h
  exact dropWhile_head_false h

theorem trimSpaceL_idem (s : List Char) : trimSpaceL (trimSpaceL s) = trimSpaceL s := by
  have hdw : (trimSpaceL s).dropWhile isGoSpace = trimSpaceL s :=
    dropWhile_eq_self_of_head (fun _ h => trimSpaceL_head_false h)
  rw [trimSpaceL, hdw, trimSpaceL, List.reverse_reverse, dropWhile_idem]

theorem processPara_no_newline (p : List Char) : '\n' ∉ processPara p := by
  intro hmem
  have h1 : '\n' ∈ collapseSpaces ((p.map (fun ch => if ch = '\n' then ' ' else ch)).length + 1)
      (p.map (fun ch => if ch = '\n' then ' ' else ch)) :=
    (trimSpaceL_infix_self _).subset hmem
  have h2 : '\n' ∈ p.map (fun ch => if ch = '\n' then ' ' else ch) :=
    (collapseSpaces_sublist _ _).subset h1
  obtain ⟨c, -, he⟩ := List.mem_map.mp h2
  by_cases hc : c = '\n' <;> simp [hc] at he

theorem processPara_no_pair (p : List Char) :
    hasPair ' ' ' ' (processPara p) = false :=
  hasPair_of_infix (trimSpaceL_infix_self _) (collapseSpaces_no_pair _ _ (by omega))

theorem processPara_trimmed (p : List Char) :
    trimSpaceL (processPara p) = processPara p :=
  trimSpaceL_idem _

theorem map_newline_id {l : List Char} (h : '\n' ∉ l) :
    l.map (fun ch => if ch = '\n' then ' ' else ch) = l := by
  induction l with
  | nil => rfl
  | cons c t ih =>
    simp only [List.mem_cons, not_or] at h
    have hc : ¬(c = '\n') := fun he => h.1 he.symm
    rw [List.map_cons, if_neg hc, ih h.2]

theorem processPara_idem (p : List Char) :
    processPara (processPara p) = processPara p := by
  rw [processPara, map_newline_id (processPara_no_newline p),
    collapseSpaces_of_no_pair (processPara_no_pair p), processPara_trimmed]

theorem splitParas_ne_nil : ∀ s : List Char, splitParas s ≠ []
  | [] => by simp [splitParas]
  | [c] => by simp [splitParas]
  | c :: d :: rest => by
    rw [splitParas]
    split
    · simp
    · split <;> simp

theorem splitParas_no_newline : ∀ (p : List Char), '\n' ∉ p → splitParas p = [p]
  | [], _ => rfl
  | [c], _ => rfl
  | c :: d :: rest, h => by
    simp only [List.mem_cons, not_or] at h
    have hc : ¬(c = '\n' ∧ d = '\n') := by
      rintro ⟨rfl, -⟩
      exact h.1 rfl
    have ih := splitParas_no_newline (d :: rest) (by
      simp only [List.mem_cons, not_or]
      exact ⟨h.2.1, h.2.2⟩)
    rw [splitParas, if_neg hc, ih]

theorem splitParas_append_sep : ∀ (p q : List Char), '\n' ∉ p →
    splitParas (p ++ '\n' :: '\n' :: q) = p :: splitParas q
  | [], q, _ => by
    rw [List.nil_append, splitParas, if_pos ⟨rfl, rfl⟩]
  | [c], q, h => by
    simp only [List.mem_cons, not_or] at h
    have hc : ¬(c = '\n' ∧ ('\n' : Char) = '\n') := by
      rintro ⟨rfl, -⟩
      exact h.1 rfl
    have e1 : splitParas ('\n' :: '\n' :: q) = [] :: splitParas q := by
      rw [splitParas, if_pos ⟨rfl, rfl⟩]
    rw [List.cons_append, List.nil_append, splitParas, if_neg hc, e1]
  | c :: d :: p, q, h => by
    simp only [List.mem_cons, not_or] at h
    have hc : ¬(c = '\n' ∧ d = '\n') := by
      rintro ⟨rfl, -⟩
      exact h.1 rfl
    have ih := splitParas_append_sep (d :: p) q (by
      simp only [List.mem_cons, not_or]
      exact ⟨h.2.1, h.2.2⟩)
    simp only [List.cons_append] at ih ⊢
    rw [splitParas, if_neg hc, ih]

theorem intercalate_two (sep x y : List Char) (zs : List (List Char)) :
    List.intercalate sep (x :: y :: zs) = x ++ sep ++ List.intercalate sep (y :: zs) := by
  simp [List.intercalate, List.intersperse_cons_cons, List.append_assoc]

theorem intercalate_single (p : List Char) (sep : List Char) :
    List.intercalate sep [p] = p := by
  simp [List.intercalate]

theorem splitParas_intercalate : ∀ ps : List (List Char), ps ≠ [] →
    (∀ p ∈ ps, '\n' ∉ p) → splitParas (List.intercalate ['\n', '\n'] ps) = ps
  | [], h, _ => absurd rfl h
  | [p], _, hp => by
    rw [intercalate_single]
    exact splitParas_no_newline p (hp p (by simp))
  | p :: p' :: ps, _, hp => by
    rw [intercalate_two]
    simp only [List.append_assoc, List.cons_append, List.nil_append]
    rw [splitParas_append_sep p _ (hp p (by simp))]
    rw [splitParas_intercalate (p' :: ps) (by simp) (fun x hx => hp x (by simp [hx]))]

theorem hasPair_cons_false {a b x : Char} {l : List Char} (hx : ¬x = a)
    (h : hasPair a b l = false) : hasPair a b (x :: l) = false := by
  cases l with
  | nil => rfl
  | cons y l =>
    rw [hasPair]
    simp only [Bool.or_eq_false_iff]
    refine ⟨?_, h⟩
    simp [hx]

theorem hasPair_append_false {a b : Char} : ∀ (xs : List Char) {ys : List Char},
    hasPair a b xs = false → hasPair a b ys = false →
    ¬(xs.getLast? = some a ∧ ys.head? = some b) → hasPair a b (xs ++ ys) = false
  | [], ys, _, h2, _ => h2
  | [x], ys, _, h2, h3 => by
    rw [List.cons_append, List.nil_append]
    cases ys with
    | nil => rfl
    | cons y ys =>
      rw [hasPair]
      simp only [Bool.or_eq_false_iff]
      refine ⟨?_, h2⟩
      have hxy : ¬(x = a ∧ y = b) := by
        rintro ⟨rfl, rfl⟩
        exact h3 ⟨rfl, rfl⟩
      by_cases hx : x = a
      · by_cases hy : y = b
        · exact absurd ⟨hx, hy⟩ hxy
        · simp [hy]
      · simp [hx]
  | x :: x' :: xs, ys, h1, h2, h3 => by
    rw [hasPair] at h1
    rcases Bool.or_eq_false_iff.mp h1 with ⟨h1a, h1b⟩
    simp only [List.cons_append]
    rw [hasPair]
    simp only [Bool.or_eq_false_iff]
    constructor
    · exact h1a
    · rw [List.getLast?_cons_cons] at h3
      have := hasPair_append_false (x' :: xs) h1b h2 h3
      simpa [List.cons_append] using this

theorem intercalate_getLast_ne_cr : ∀ ps : List (List Char),
    (∀ p ∈ ps, p.getLast? ≠ some '\r') →
    (List.intercalate ['\n', '\n'] ps).getLast? ≠ some '\r'
  | [], _ => by decide
  | [p], h => by
    rw [intercalate_single]
    exact h p (by simp)
  | p :: p' :: ps, h => by
    rw [intercalate_two, List.append_assoc]
    rw [List.getLast?_append_of_ne_nil _ (by simp)]
    cases hJ : List.intercalate ['\n', '\n'] (p' :: ps) with
    | nil => decide
    | cons j js =>
      rw [show (['\n', '\n'] : List Char) ++ j :: js = '\n' :: '\n' :: j :: js from rfl]
      rw [List.getLast?_cons_cons, List.getLast?_cons_cons]
      have hr := intercalate_getLast_ne_cr (p' :: ps) (fun x hx => h x (by simp [hx]))
      rw [hJ] at hr
      exact hr

theorem intercalate_noCRLF : ∀ ps : List (List Char),
    (∀ p ∈ ps, '\n' ∉ p ∧ p.getLast? ≠ some '\r') →
    hasPair '\r' '\n' (List.intercalate ['\n', '\n'] ps) = false
  | [], _ => by decide
  | [p], h => by
    rw [intercalate_single]
    exact hasPair_false_of_not_mem (h p (by simp)).1
  | p :: p' :: ps, h => by
    rw [intercalate_two, List.append_assoc]
    refine hasPair_append_false p (hasPair_false_of_not_mem (h p (by simp)).1) ?_ ?_
    · have hr : hasPair '\r' '\n' (List.intercalate ['\n', '\n'] (p' :: ps)) = false :=
        intercalate_noCRLF (p' :: ps) (fun x hx => h x (by simp [hx]))
      have h1 : hasPair '\r' '\n'
          ('\n' :: List.intercalate ['\n', '\n'] (p' :: ps)) = false :=
        hasPair_cons_false (by decide) hr
      have h2 : hasPair '\r' '\n'
          ('\n' :: '\n' :: List.intercalate ['\n', '\n'] (p' :: ps)) = false :=
        hasPair_cons_false (by decide) h1
      simpa using h2
    · rintro ⟨hl, -⟩
      exact (h p (by simp)).2 hl

theorem replacePair_ne_nil {a b c : Char} : ∀ {l : List Char},
    l ≠ [] → replacePair a b c l ≠ []
  | [], h => absurd rfl h
  | [x], _ => fun hc => List.cons_ne_nil x [] hc
  | x :: y :: l, _ => by
    rw [replacePair]
    split <;> simp

theorem replacePair_CRLF_getLast : ∀ l : List Char,
    ((replacePair '\r' '\n' '\n' l).getLast? = some '\n' ↔ l.getLast? = some '\n')
  | [] => Iff.rfl
  | [x] => Iff.rfl
  | x :: y :: l => by
    rw [replacePair]
    split
    · next hxy =>
      obtain ⟨hx, hy⟩ := hxy
      subst hx
      subst hy
      cases l with
      | nil => decide
      | cons z zs =>
        have hne := @replacePair_ne_nil '\r' '\n' '\n' (z :: zs) (by simp)
        obtain ⟨w, ws, hw⟩ := List.exists_cons_of_ne_nil hne
        have e1 : (('\n' : Char) :: replacePair '\r' '\n' '\n' (z :: zs)).getLast?
            = (replacePair '\r' '\n' '\n' (z :: zs)).getLast? := by
          rw [hw, List.getLast?_cons_cons]
        have e2 : (('\r' : Char) :: '\n' :: z :: zs).getLast? = (z :: zs).getLast? := by
          rw [List.getLast?_cons_cons, List.getLast?_cons_cons]
        rw [e1, e2]
        exact replacePair_CRLF_getLast (z :: zs)
    · next hxy =>
      have hne := @replacePair_ne_nil '\r' '\n' '\n' (y :: l) (by simp)
      obtain ⟨w, ws, hw⟩ := List.exists_cons_of_ne_nil hne
      have e1 : (x :: replacePair '\r' '\n' '\n' (y :: l)).getLast?
          = (replacePair '\r' '\n' '\n' (y :: l)).getLast? := by
        rw [hw, List.getLast?_cons_cons]
      rw [e1, List.getLast?_cons_cons]
      exact replacePair_CRLF_getLast (y :: l)

theorem unfillL_expand (t : List Char) :
    unfillL t =
      if (replacePair '\r' '\n' '\n' t).getLast? = some '\n' ∧
          List.intercalate ['\n', '\n']
            ((splitParas (if (replacePair '\r' '\n' '\n' t).getLast? = some '\n'
              then (replacePair '\r' '\n' '\n' t).dropLast
              else replacePair '\r' '\n' '\n' t)).map processPara) ≠ [] then
        List.intercalate ['\n', '\n']
          ((splitParas (if (replacePair '\r' '\n' '\n' t).getLast? = some '\n'
            then (replacePair '\r' '\n' '\n' t).dropLast
            else replacePair '\r' '\n' '\n' t)).map processPara) ++ ['\n']
      else
        List.intercalate ['\n', '\n']
          ((splitParas (if (replacePair '\r' '\n' '\n' t).getLast? = some '\n'
            then (replacePair '\r' '\n' '\n' t).dropLast
            else replacePair '\r' '\n' '\n' t)).map processPara) := rfl

/-- A paragraph list in reflowed normal form (no newlines, fixed by
`processPara`, not ending in a carriage return) is reproduced by a second
pass of `unfill`, both with and without a restored trailing newline. -/
theorem unfillL_of_normal (paras : List (List Char)) (hne : paras ≠ [])
    (hfacts : ∀ p ∈ paras, '\n' ∉ p ∧ processPara p = p ∧ p.getLast? ≠ some '\r') :
    (List.intercalate ['\n', '\n'] paras ≠ [] →
      unfillL (List.intercalate ['\n', '\n'] paras ++ ['\n'])
        = List.intercalate ['\n', '\n'] paras ++ ['\n']) ∧
    ((List.intercalate ['\n', '\n'] paras).getLast? ≠ some '\n' →
      unfillL (List.intercalate ['\n', '\n'] paras)
        = List.intercalate ['\n', '\n'] paras) := by
  have hnoNL : ∀ p ∈ paras, '\n' ∉ p := fun p hp => (hfacts p hp).1
  have hlastr : ∀ p ∈ paras, p.getLast? ≠ some '\r' := fun p hp => (hfacts p hp).2.2
  have hrfree : hasPair '\r' '\n' (List.intercalate ['\n', '\n'] paras) = false :=
    intercalate_noCRLF paras (fun p hp => ⟨hnoNL p hp, hlastr p hp⟩)
  have hrlast : (List.intercalate ['\n', '\n'] paras).getLast? ≠ some '\r' :=
    intercalate_getLast_ne_cr paras hlastr
  have hsplit : splitParas (List.intercalate ['\n', '\n'] paras) = paras :=
    splitParas_intercalate paras hne hnoNL
  have hmap : paras.map processPara = paras := by
    rw [List.map_congr_left (fun a ha => (hfacts a ha).2.1)]
    exact List.map_id paras
  constructor
  · intro hrne
    have hcr : replacePair '\r' '\n' '\n' (List.intercalate ['\n', '\n'] paras ++ ['\n'])
        = List.intercalate ['\n', '\n'] paras ++ ['\n'] := by
      apply replacePair_of_no_pair
      refine hasPair_append_false _ hrfree (by decide) ?_
      rintro ⟨hl, -⟩
      exact hrlast hl
    have hlast2 : (List.intercalate ['\n', '\n'] paras ++ ['\n']).getLast? = some '\n' :=
      List.getLast?_concat _
    rw [unfillL_expand, hcr]
    simp only [if_pos hlast2, List.dropLast_concat, hsplit, hmap]
    rw [if_pos ⟨hlast2, hrne⟩]
  · intro hrl
    have hcr : replacePair '\r' '\n' '\n' (List.intercalate ['\n', '\n'] paras)
        = List.intercalate ['\n', '\n'] paras := replacePair_of_no_pair hrfree
    rw [unfillL_expand, hcr]
    simp only [if_neg hrl, hsplit, hmap]
    rw [if_neg (fun hc => hrl hc.1)]

/-- Idempotence analysis of `unfill` at the rune level: a second pass is the
identity whenever the input ended with a newline or the first pass's output
does not end with one. -/
theorem unfillL_idem (s : List Char)
    (h : s.getLast? = some '\n' ∨ (unfillL s).getLast? ≠ some '\n') :
    unfillL (unfillL s) = unfillL s := by
  rw [unfillL_expand s] at h ⊢
  set s1 := replacePair '\r' '\n' '\n' s with hs1def
  set s2 := (if s1.getLast? = some '\n' then s1.dropLast else s1) with hs2def
  set paras := (splitParas s2).map processPara with hparasdef
  set J := List.intercalate ['\n', '\n'] paras with hJdef
  have hfacts : ∀ p ∈ paras, '\n' ∉ p ∧ processPara p = p ∧ p.getLast? ≠ some '\r' := by
    intro p hp
    rw [hparasdef] at hp
    obtain ⟨q, -, rfl⟩ := List.mem_map.mp hp
    refine ⟨processPara_no_newline q, processPara_idem q, ?_⟩
    intro hlast
    have hx : isGoSpace '\r' = false := trimSpaceL_getLast_false hlast
    exact absurd hx (by decide)
  have hne : paras ≠ [] := by
    rw [hparasdef]
    intro hc
    exact splitParas_ne_nil s2 (List.map_eq_nil_iff.mp hc)
  have hnorm := unfillL_of_normal paras hne hfacts
  rw [← hJdef] at hnorm
  by_cases hA : s1.getLast? = some '\n' ∧ J ≠ []
  · rw [if_pos hA]
    exact hnorm.1 hA.2
  · rw [if_neg hA]
    by_cases hrnil : J = []
    · rw [hrnil]
      decide
    · have hs1last : ¬s1.getLast? = some '\n' := fun hc => hA ⟨hc, hrnil⟩
      have hrl : J.getLast? ≠ some '\n' := by
        rcases h with hc | hc
        · exact absurd ((replacePair_CRLF_getLast s).mpr hc) hs1last
        · rw [if_neg hA] at hc
          exact hc
      exact hnorm.2 hrl

/-- Counterexample for C6: `unfill` is not idempotent.  For the input
`"a\n\n "` the trailing space paragraph trims to empty, so the first pass
ends in newline characters that the second pass then consumes:
`unfill "a\n\n " = "a\n\n"` but `unfill "a\n\n" = "a\n"`. -/
theorem C6_unfill_not_idempotent :
    unfill (unfill "a\n\n ") ≠ unfill "a\n\n " := by decide

/-- C6 (amended): `unfill` is idempotent on every text that either ends with
a newline or whose reflowed output does not end with a newline; this covers
all inputs except those whose final paragraphs trim to empty without the
input having a trailing newline. -/
theorem C6_unfill_idempotent :
    ∀ s : String, s.data.getLast? = some '\n' ∨ (unfill s).data.getLast? ≠ some '\n' →
      unfill (unfill s) = unfill s := by
  intro s h
  have := unfillL_idem s.data h
  simp only [unfill]
  exact congrArg String.mk this

/-- Witness for C6 (amended) at concrete inputs of both hypothesis shapes. -/
theorem C6_unfill_idempotent_witness :
    unfill (unfill "first\n\nsecond\n") = unfill "first\n\nsecond\n" ∧
      unfill (unfill "a\nb") = unfill "a\nb" :=
  ⟨C6_unfill_idempotent "first\n\nsecond\n" (by decide),
   C6_unfill_idempotent "a\nb" (by decide)⟩

/-! ### Indentation normalizer (`dedent` in src/cli/dedent.go) -/

/-- Go `strings.Split(s, sep)` for a one-character separator. -/
def splitOnChar (sep : Char) : List Char → List (List Char)
  | [] => [[]]
  | c :: rest =>
    if c = sep then [] :: splitOnChar sep rest
    else
      match splitOnChar sep rest with
      | [] => [[c]]
      | p :: ps => (c :: p) :: ps

/-- A line is blank when `len(strings.TrimSpace(line)) == 0` (dedent.go). -/
def isBlankLine (l : List Char) : Bool :=
  (trimSpaceL l).isEmpty

/-- Leading whitespace run of a line:
`len(line) - len(strings.TrimLeft(line, " \t"))` (dedent.go). -/
def leadingWS (l : List Char) : Nat :=
  l.length - (l.dropWhile (fun c => c = ' ' || c = '\t')).length

/-- One iteration of the minimum-indent loop of `dedent`: skip blank lines,
keep the smaller indent otherwise.  Go seeds `minIndent` with `math.MaxInt`
and tests `minIndent == math.MaxInt` afterwards to detect that every line
was blank; the sentinel is modelled by `Option.none` (a real indent always
being smaller than `math.MaxInt`). -/
def minIndentStep (acc : Option Nat) (l : List Char) : Option Nat :=
  if isBlankLine l then acc
  else
    match acc with
    | none => some (leadingWS l)
    | some m => if leadingWS l < m then some (leadingWS l) else some m

/-- The minimum-indent loop of `dedent`. -/
def minIndentFold (lines : List (List Char)) : Option Nat :=
  lines.foldl minIndentStep none

/-- The `dedent` function of dedent.go.  Go slices each line as
`line[minIndent:]` by byte index; the counted leading run consists of
single-byte runes (spaces and tabs), so the cut is modelled at rune
granularity. -/
def dedent (s : String) : String :=
  let lines := splitOnChar '\n' s.data
  match minIndentFold lines with
  | none => s
  | some m =>
    String.mk (trimSpaceL (List.intercalate ['\n']
      (lines.map (fun l => if m ≤ l.length then l.drop m else l))))

/-- Final whole-block step as the C7 claim words it: instead of Go's
`strings.TrimSpace` on the joined text, only leading and trailing blank
lines are removed.  Used to exhibit the counterexample to the claim. -/
def dedentClaim (s : String) : String :=
  let lines := splitOnChar '\n' s.data
  match minIndentFold lines with
  | none => s
  | some m =>
    let stripped := lines.map (fun l => if m ≤ l.length then l.drop m else l)
    let trimmed := ((stripped.dropWhile isBlankLine).reverse.dropWhile isBlankLine).reverse
    String.mk (List.intercalate ['\n'] trimmed)

theorem minIndentFold_acc : ∀ (lines : List (List Char)) (m : Nat),
    ∃ m', List.foldl minIndentStep (some m) lines = some m' ∧ m' ≤ m ∧
      (m' = m ∨ ∃ l ∈ lines, isBlankLine l = false ∧ leadingWS l = m') ∧
      (∀ l ∈ lines, isBlankLine l = false → m' ≤ leadingWS l) := by
  intro lines
  induction lines with
  | nil => exact fun m => ⟨m, rfl, le_refl _, Or.inl rfl, by simp⟩
  | cons l ls ih =>
    intro m
    by_cases hb : isBlankLine l = true
    · obtain ⟨m', h1, h2, h3, h4⟩ := ih m
      refine ⟨m', ?_, h2, ?_, ?_⟩
      · simpa [List.foldl_cons, minIndentStep, hb] using h1
      · rcases h3 with h3 | ⟨l', hl', hbl', hw⟩
        · exact Or.inl h3
        · exact Or.inr ⟨l', by simp [hl'], hbl', hw⟩
      · intro l' hl' hbl'
        rcases List.mem_cons.mp hl' with rfl | hl'
        · rw [hb] at hbl'; cases hbl'
        · exact h4 l' hl' hbl'
    · rw [Bool.not_eq_true] at hb
      by_cases hlt : leadingWS l < m
      · obtain ⟨m', h1, h2, h3, h4⟩ := ih (leadingWS l)
        refine ⟨m', ?_, by omega, ?_, ?_⟩
        · simpa [List.foldl_cons, minIndentStep, hb, hlt] using h1
        · rcases h3 with h3 | ⟨l', hl', hbl', hw⟩
          · exact Or.inr ⟨l, by simp, hb, h3.symm ▸ rfl⟩
          · exact Or.inr ⟨l', by simp [hl'], hbl', hw⟩
        · intro l' hl' hbl'
          rcases List.mem_cons.mp hl' with rfl | hl'
          · omega
          · exact h4 l' hl' hbl'
      · obtain ⟨m', h1, h2, h3, h4⟩ := ih m
        refine ⟨m', ?_, h2, ?_, ?_⟩
        · simpa [List.foldl_cons, minIndentStep, hb, hlt] using h1
        · rcases h3 with h3 | ⟨l', hl', hbl', hw⟩
          · exact Or.inl h3
          · exact Or.inr ⟨l', by simp [hl'], hbl', hw⟩
        · intro l' hl' hbl'
          rcases List.mem_cons.mp hl' with rfl | hl'
          · omega
          · exact h4 l' hl' hbl'

theorem minIndentFold_all_blank : ∀ lines : List (List Char),
    (∀ l ∈ lines, isBlankLine l = true) → minIndentFold lines = none := by
  intro lines
  induction lines with
  | nil => intro _; rfl
  | cons l ls ih =>
    intro h
    have hb := h l (by simp)
    have : minIndentFold (l :: ls) = minIndentFold ls := by
      simp [minIndentFold, List.foldl_cons, minIndentStep, hb]
    rw [this]
    exact ih (fun l' hl' => h l' (by simp [hl']))

theorem minIndentFold_of_nonblank (lines : List (List Char)) :
    ∀ l₀ ∈ lines, isBlankLine l₀ = false →
    ∃ m, minIndentFold lines = some m ∧
      (∀ l ∈ lines, isBlankLine l = false → m ≤ leadingWS l) ∧
      (∃ l ∈ lines, isBlankLine l = false ∧ leadingWS l = m) := by
  induction lines with
  | nil => intro l₀ h; simp at h
  | cons l ls ih =>
    intro l₀ hl₀ hb₀
    by_cases hb : isBlankLine l = true
    · have hmem : l₀ ∈ ls := by
        rcases List.mem_cons.mp hl₀ with rfl | h
        · rw [hb] at hb₀; cases hb₀
        · exact h
      obtain ⟨m, h1, h2, h3⟩ := ih l₀ hmem hb₀
      refine ⟨m, ?_, ?_, ?_⟩
      · have : minIndentFold (l :: ls) = minIndentFold ls := by
          simp [minIndentFold, List.foldl_cons, minIndentStep, hb]
        rw [this, h1]
      · intro l' hl' hbl'
        rcases List.mem_cons.mp hl' with rfl | hl'
        · rw [hb] at hbl'; cases hbl'
        · exact h2 l' hl' hbl'
      · obtain ⟨l', hl', hbl', hw⟩ := h3
        exact ⟨l', by simp [hl'], hbl', hw⟩
    · rw [Bool.not_eq_true] at hb
      obtain ⟨m', h1, h2, h3, h4⟩ := minIndentFold_acc ls (leadingWS l)
      refine ⟨m', ?_, ?_, ?_⟩
      · have : minIndentFold (l :: ls) = List.foldl minIndentStep (some (leadingWS l)) ls := by
          simp [minIndentFold, List.foldl_cons, minIndentStep, hb]
        rw [this, h1]
      · intro l' hl' hbl'
        rcases List.mem_cons.mp hl' with rfl | hl'
        · exact h2
        · exact h4 l' hl' hbl'
      · rcases h3 with h3 | ⟨l', hl', hbl', hw⟩
        · exact ⟨l, by simp, hb, h3.symm⟩
        · exact ⟨l', by simp [hl'], hbl', hw⟩

/-- Counterexample for C7: the final whole-block step of `dedent` is Go
`strings.TrimSpace` on the joined text, which also removes trailing
whitespace inside the last line — not merely leading and trailing blank
lines as the claim states: on `"a "` the claim's reading leaves `"a "`
while `dedent` returns `"a"`. -/
theorem C7_dedent_counterexample :
    dedent "a " = "a" ∧ dedentClaim "a " = "a " ∧ dedent "a " ≠ dedentClaim "a " := by
  decide

/-- C7 (amended): `dedent` finds the minimum leading space/tab run over the
non-blank lines, strips exactly that many leading characters from every line
at least that long, and finally trims all leading and trailing whitespace of
the joined block (Go `strings.TrimSpace`, which subsumes removing leading
and trailing blank lines); if every line is blank the input is returned
unchanged; and `dedent "\t\tline one\n\t\tline two"` is
`"line one\nline two"`. -/
theorem C7_dedent_spec :
    (dedent "\t\tline one\n\t\tline two" = "line one\nline two") ∧
    (∀ s : String, (∀ l ∈ splitOnChar '\n' s.data, isBlankLine l = true) → dedent s = s) ∧
    (∀ s : String, ∀ l₀ ∈ splitOnChar '\n' s.data, isBlankLine l₀ = false →
      ∃ m : Nat,
        (∀ l ∈ splitOnChar '\n' s.data, isBlankLine l = false → m ≤ leadingWS l) ∧
        (∃ l ∈ splitOnChar '\n' s.data, isBlankLine l = false ∧ leadingWS l = m) ∧
        dedent s = String.mk (trimSpaceL (List.intercalate ['\n']
          ((splitOnChar '\n' s.data).map
            (fun l => if m ≤ l.length then l.drop m else l))))) := by
  refine ⟨by decide, ?_, ?_⟩
  · intro s h
    have hnone := minIndentFold_all_blank _ h
    simp [dedent, hnone]
  · intro s l₀ hl₀ hb₀
    obtain ⟨m, h1, h2, h3⟩ := minIndentFold_of_nonblank _ l₀ hl₀ hb₀
    refine ⟨m, h2, h3, ?_⟩
    simp [dedent, h1]

/-- Witness for C7 (amended): the all-blank part at a concrete input. -/
theorem C7_dedent_spec_witness : dedent " \n " = " \n " :=
  C7_dedent_spec.2.1 " \n " (by decide)

/-! ### Enumerated flag value (`EnumValue`, src/unnamed/part_005) -/

/-- An enum value with an optional help description (`EnumOption`). -/
structure EnumOption where
  Name : String
  Help : String
deriving DecidableEq

/-- The `EnumValue[T]` structure of part_005.  The Go maps `names`, `values`
and `help` are modelled as lookup functions; map insertion overwrites, which
the update closures built by `Enum` reproduce. -/
structure EnumValue (T : Type) where
  value : T
  names : T → Option String
  values : String → Option T
  allowed : List String
  help : String → Option String
  baseType : String

/-- The `Enum` constructor of part_005.  `fmt.Sprintf("%v", v)` is the
display-name function `fmtv` (Go's reflection-based formatting is external
to this repository), and the `reflect.TypeOf(def).Kind() == reflect.String`
test is the `isStringKind` parameter for the same reason. -/
def Enum {T : Type} [DecidableEq T] (fmtv : T → String) (isStringKind : Bool)
    (def_ : T) (allowed : List T) : EnumValue T :=
  { value := def_
    names := allowed.foldl (fun m v => fun x => if x = v then some (fmtv v) else m x)
      (fun _ => none)
    values := allowed.foldl (fun m v => fun s => if s = fmtv v then some v else m s)
      (fun _ => none)
    allowed := allowed.map fmtv
    help := fun _ => none
    baseType := if isStringKind then "string" else "int" }

/-- `EnumValue.Set` (part_005): validate and set the value from a string.
Go mutates the receiver and returns an `error`; the embedding returns the
updated enum together with the optional error message, the receiver coming
back unchanged on failure. -/
def EnumValue.Set {T : Type} (e : EnumValue T) (s : String) : EnumValue T × Option String :=
  match e.values s with
  | some v => ({ e with value := v }, none)
  | none => (e, some ("must be one of: " ++ String.intercalate ", " e.allowed))

/-- `EnumValue.Get` (part_005): the current typed enum value. -/
def EnumValue.Get {T : Type} (e : EnumValue T) : T :=
  e.value

theorem enum_values_lookup {T : Type} [DecidableEq T] (fmtv : T → String) :
    ∀ (vals : List T) (m : String → Option T) (s : String),
      ((vals.foldl (fun m v => fun s' => if s' = fmtv v then some v else m s') m) s).isSome
        ↔ s ∈ vals.map fmtv ∨ (m s).isSome
  | [], m, s => by simp
  | v :: vs, m, s => by
    rw [List.foldl_cons, enum_values_lookup fmtv vs]
    by_cases hs : s = fmtv v
    · simp [hs]
    · simp [hs]

/-- C4: for an enum built by `Enum`, `Set s` succeeds exactly when `s` is
(case-sensitively) one of the allowed display names; on failure the error
message starts with "must be one of" and the stored value is untouched, so
`Get` still returns the previous value. -/
theorem C4_enum_set :
    ∀ (T : Type) [DecidableEq T] (fmtv : T → String) (isStringKind : Bool)
      (d : T) (vals : List T) (s : String),
      (((Enum fmtv isStringKind d vals).Set s).2 = none
        ↔ s ∈ (Enum fmtv isStringKind d vals).allowed) ∧
      (((Enum fmtv isStringKind d vals).Set s).2 ≠ none →
        ((Enum fmtv isStringKind d vals).Set s).1 = Enum fmtv isStringKind d vals ∧
        ((Enum fmtv isStringKind d vals).Set s).1.Get = (Enum fmtv isStringKind d vals).Get) ∧
      (∀ msg, ((Enum fmtv isStringKind d vals).Set s).2 = some msg →
        "must be one of".data <+: msg.data) := by
  intro T _ fmtv isStringKind d vals s
  have hlook : ((Enum fmtv isStringKind d vals).values s).isSome
      ↔ s ∈ (Enum fmtv isStringKind d vals).allowed := by
    have := enum_values_lookup fmtv vals (fun _ => none) s
    simpa [Enum] using this
  refine ⟨?_, ?_, ?_⟩
  · constructor
    · intro h
      apply hlook.mp
      rw [EnumValue.Set] at h
      cases hv : (Enum fmtv isStringKind d vals).values s with
      | none => rw [hv] at h; simp at h
      | some v => simp [hv]
    · intro h
      rw [EnumValue.Set]
      cases hv : (Enum fmtv isStringKind d vals).values s with
      | none =>
        have := hlook.mpr h
        rw [hv] at this
        simp at this
      | some v => rfl
  · intro h
    rw [EnumValue.Set] at h ⊢
    cases hv : (Enum fmtv isStringKind d vals).values s with
    | none => exact ⟨rfl, rfl⟩
    | some v => rw [hv] at h; simp at h
  · intro msg h
    rw [EnumValue.Set] at h
    cases hv : (Enum fmtv isStringKind d vals).values s with
    | none =>
      rw [hv] at h
      simp only [Option.some.injEq] at h
      subst h
      refine ⟨(": " ++ String.intercalate ", " (Enum fmtv isStringKind d vals).allowed).data, ?_⟩
      rw [← String.data_append]
      congr 1
    | some v => rw [hv] at h; simp at h

/-- Witness for C4 at the spec's concrete scenario
`Enum(default, default, other)` with `Set("unknown")`. -/
theorem C4_enum_set_witness :
    (((Enum (fun s => s) true "default" ["default", "other"]).Set "unknown").2 ≠ none) ∧
      ((Enum (fun s => s) true "default" ["default", "other"]).Set "unknown").1.Get
        = "default" := by
  have h := C4_enum_set String (fun s => s) true "default" ["default", "other"] "unknown"
  have hne : (((Enum (fun s : String => s) true "default" ["default", "other"]).Set
      "unknown").2 ≠ none) := by
    intro hc
    have := h.1.mp hc
    revert this
    decide
  exact ⟨hne, (h.2.1 hne).2⟩

/-! ### Flag requirement validation (src/cli/require.go) -/

/-- View of a `pflag.Flag` as consumed by the requirement check: flag name,
whether the flag was set during parsing (`Changed`), and the list stored
under the `purpleclay_cli_requires` key that `GetFlagRequires` reads. -/
structure PFlag where
  name : String
  changed : Bool
  requires : List String
deriving DecidableEq

/-- `pflag.FlagSet.Lookup` by flag name. -/
def lookupFlag (flags : List PFlag) (name : String) : Option PFlag :=
  flags.find? (fun f => f.name == name)

/-- `validateFlagRequires` of require.go: when a flag that declares
requirements has been set, every required flag that is absent from the set
or unset is collected in declaration order, prefixed `--`, and reported at
once as `flag --<name> requires --<r1>, --<r2>, ...`; Go's `nil` error is
`none`. -/
def validateFlagRequires (flags : List PFlag) (flag : PFlag) : Option String :=
  if flag.requires.length = 0 ∨ flag.changed = false then none
  else
    let missing := flag.requires.filterMap (fun req =>
      match lookupFlag flags req with
      | none => some ("--" ++ req)
      | some reqFlag => if reqFlag.changed then none else some ("--" ++ req))
    if missing.length > 0 then
      some ("flag --" ++ flag.name ++ " requires " ++ String.intercalate ", " missing)
    else none

theorem requires_missing_eq (flags : List PFlag) : ∀ rs : List String,
    (rs.filterMap (fun req =>
      match lookupFlag flags req with
      | none => some ("--" ++ req)
      | some reqFlag => if reqFlag.changed then none else some ("--" ++ req)))
    = ((rs.filter (fun r =>
        match lookupFlag flags r with
        | none => true
        | some g => !g.changed)).map (fun r => "--" ++ r))
  | [] => rfl
  | r :: rs => by
    rw [List.filterMap_cons, List.filter_cons]
    cases hl : lookupFlag flags r with
    | none =>
      simp [hl, requires_missing_eq flags rs]
    | some g =>
      by_cases hg : g.changed = true
      · simp [hl, hg, requires_missing_eq flags rs]
      · rw [Bool.not_eq_true] at hg
        simp [hl, hg, requires_missing_eq flags rs]

/-- C8: validation of a set flag with unmet requirements fails with the
error `flag --<name> requires --<r1>, --<r2>, ...` listing every
currently-unset required flag at once (the filter keeps declaration order
and drops satisfied requirements), succeeds exactly when the flag is unset,
declares nothing, or all required flags are set; illustrated on a concrete
flag set with two and with one missing requirement. -/
theorem C8_flag_requires :
    (∀ (flags : List PFlag) (flag : PFlag) (msg : String),
      validateFlagRequires flags flag = some msg →
        msg = "flag --" ++ flag.name ++ " requires " ++ String.intercalate ", "
          ((flag.requires.filter (fun r =>
            match lookupFlag flags r with
            | none => true
            | some g => !g.changed)).map (fun r => "--" ++ r))) ∧
    (∀ (flags : List PFlag) (flag : PFlag),
      validateFlagRequires flags flag = none ↔
        (flag.requires = [] ∨ flag.changed = false ∨
          ∀ r ∈ flag.requires, ∃ g, lookupFlag flags r = some g ∧ g.changed = true)) ∧
    validateFlagRequires
      [⟨"format", true, ["output", "verbose"]⟩, ⟨"output", false, []⟩,
       ⟨"verbose", false, []⟩]
      ⟨"format", true, ["output", "verbose"]⟩
      = some "flag --format requires --output, --verbose" ∧
    validateFlagRequires
      [⟨"format", true, ["output", "verbose"]⟩, ⟨"output", true, []⟩,
       ⟨"verbose", false, []⟩]
      ⟨"format", true, ["output", "verbose"]⟩
      = some "flag --format requires --verbose" := by
  refine ⟨?_, ?_, by decide, by decide⟩
  · intro flags flag msg h
    simp only [validateFlagRequires] at h
    split at h
    · cases h
    · rw [requires_missing_eq] at h
      split at h
      · simp only [Option.some.injEq] at h
        exact h.symm
      · cases h
  · intro flags flag
    simp only [validateFlagRequires]
    split
    · next hcond =>
      constructor
      · intro _
        rcases hcond with hc | hc
        · exact Or.inl (List.length_eq_zero.mp hc)
        · exact Or.inr (Or.inl hc)
      · intro _
        rfl
    · next hcond =>
      rw [requires_missing_eq]
      constructor
      · intro h
        split at h
        · cases h
        · next hlen =>
          refine Or.inr (Or.inr ?_)
          intro r hr
          have hnil : (flag.requires.filter (fun r =>
              match lookupFlag flags r with
              | none => true
              | some g => !g.changed)) = [] := by
            by_contra hc
            exact hlen (by
              simp only [List.length_map]
              exact List.length_pos.mpr hc)
          have hr' := List.filter_eq_nil_iff.mp hnil r hr
          cases hl : lookupFlag flags r with
          | none => rw [hl] at hr'; simp at hr'
          | some g =>
            rw [hl] at hr'
            refine ⟨g, rfl, ?_⟩
            simpa using hr'
      · intro h
        rcases h with hc | hc | hall
        · exact absurd (Or.inl (by simp [hc])) hcond
        · exact absurd (Or.inr hc) hcond
        · rw [if_neg]
          simp only [List.length_map, gt_iff_lt, not_lt, Nat.le_zero,
            List.length_eq_zero]
          apply List.filter_eq_nil_iff.mpr
          intro r hr
          obtain ⟨g, hg1, hg2⟩ := hall r hr
          rw [hg1]
          simp [hg2]

/-- Witness for C8: the success characterization applied at a concrete flag
set where the single requirement is satisfied. -/
theorem C8_flag_requires_witness :
    validateFlagRequires
      [⟨"workspace", true, ["check"]⟩, ⟨"check", true, []⟩]
      ⟨"workspace", true, ["check"]⟩ = none := by
  apply (C8_flag_requires.2.1
    [⟨"workspace", true, ["check"]⟩, ⟨"check", true, []⟩]
    ⟨"workspace", true, ["check"]⟩).mpr
  refine Or.inr (Or.inr ?_)
  intro r hr
  simp only [List.mem_singleton] at hr
  subst hr
  exact ⟨⟨"check", true, []⟩, by decide, rfl⟩

/-! ### Flag rendering (`renderFlagList` / `formatDefaultValue`,
src/cli/help.go).

`renderFlagList` writes one line per `Fprintf`; the embedding returns the
list of those lines (without trailing newlines).  Each `lipgloss.Style` of
the theme is an opaque `String → String` renderer, `os.Getenv` is the
`getenv` parameter, and the external word-wrapper of `wrapText` is passed
through. -/

/-- The theme styles consumed by the flag renderer (src/theme). -/
structure GoTheme where
  Flag : String → String
  FlagType : String → String
  FlagDefault : String → String
  Description : String → String
  EnvVar : String → String
  EnvVarValue : String → String

/-- Identity theme: every style renders its text unchanged. -/
def idTheme : GoTheme :=
  ⟨id, id, id, id, id, id⟩

/-- `flagTypeName` of help.go. -/
def flagTypeName (t : String) : String :=
  if t = "stringSlice" ∨ t = "stringArray" then "strings"
  else if t = "intSlice" ∨ t = "int32Slice" ∨ t = "int64Slice" then "ints"
  else if t = "uintSlice" then "uints"
  else if t = "float32" ∨ t = "float64" then "float"
  else if t = "float32Slice" ∨ t = "float64Slice" then "floats"
  else if t = "boolSlice" then "bools"
  else if t = "durationSlice" then "durations"
  else if t = "ipSlice" then "ips"
  else if t = "ipNetSlice" then "cidrs"
  else t

/-- Go `strings.TrimSuffix` for a one-character suffix. -/
def trimSuffixChar (s : List Char) (c : Char) : List Char :=
  if s.getLast? = some c then s.dropLast else s

/-- Go `strings.TrimPrefix` for a one-character prefix. -/
def trimPrefixChar (s : List Char) (c : Char) : List Char :=
  match s with
  | x :: rest => if x = c then rest else x :: rest
  | [] => []

/-- `formatDefaultValue` of help.go: type-aware rendering of a serialized
default value — string defaults quoted, bracketed collection defaults
unbracketed and split on commas with each element styled (and quoted for
string-like element types), anything else styled as-is. -/
def formatDefaultValue (value valueType : String) (style : String → String) : String :=
  if valueType = "string" then
    "\"" ++ style value ++ "\""
  else if valueType = "stringSlice" ∨ valueType = "stringArray" ∨
      valueType = "durationSlice" ∨ valueType = "ipSlice" ∨ valueType = "ipNetSlice" then
    let trimmed := trimPrefixChar (trimSuffixChar value.data ']') '['
    if trimmed = [] then ""
    else
      String.intercalate ", " ((splitOnChar ',' trimmed).map
        (fun p => "\"" ++ style (String.mk p) ++ "\""))
  else if valueType = "intSlice" ∨ valueType = "int32Slice" ∨ valueType = "int64Slice" ∨
      valueType = "uintSlice" ∨ valueType = "float32Slice" ∨ valueType = "float64Slice" ∨
      valueType = "boolSlice" then
    let trimmed := trimPrefixChar (trimSuffixChar value.data ']') '['
    if trimmed = [] then ""
    else
      String.intercalate ", " ((splitOnChar ',' trimmed).map (fun p => style (String.mk p)))
  else style value

/-- `formatEnvVar` of help.go; truncation at 20 is by byte index in Go and
modelled at rune granularity. -/
def formatEnvVar (getenv : String → String) (envVar : String) (theme : GoTheme) : String :=
  let val := getenv envVar
  if val = "" then "[env: " ++ theme.EnvVar envVar ++ "]"
  else
    let val := if val.length > 20 then String.mk (val.data.take 20) ++ "..." else val
    "[env: " ++ theme.EnvVar envVar ++ "=" ++ theme.EnvVarValue val ++ "]"

/-- Enum metadata a flag value exposes through the `EnumHelper` interface
(`HasHelp`, `BaseType`, `HelpEntries`). -/
structure EnumView where
  hasHelp : Bool
  baseType : String
  entries : List EnumOption
deriving DecidableEq

/-- View of a `pflag.Flag` as consumed by `renderFlagList`: name, shorthand,
serialized default (`DefValue`), usage text, `f.Value.Type()`, the bound
environment variable (`GetEnvVar`, empty when unbound), and the enum
metadata when the flag value implements `EnumHelper`. -/
structure HelpFlag where
  name : String
  shorthand : String
  defValue : String
  usage : String
  valueType : String
  envVar : String
  enum : Option EnumView
deriving DecidableEq

/-- The usage/description loop of `renderFlagList` (the `for j, line` loop):
each wrapped line is indented and styled, and when a default-value
annotation is due it is appended to the last line before styling. -/
def descLoop (theme : GoTheme) (hasDefault : Bool) (annot : String) :
    List String → List String
  | [] => []
  | [line] =>
    ["          " ++ theme.Description
      (if hasDefault then line ++ " (default: " ++ annot ++ ")" else line)]
  | line :: rest =>
    ("          " ++ theme.Description line) :: descLoop theme hasDefault annot rest

/-- Lines `renderFlagList` emits for a single flag. -/
def renderFlag (getenv : String → String) (wordwrapString : String → Int → String)
    (theme : GoTheme) (width : Int) (f : HelpFlag) : List String :=
  let flagStr :=
    if f.shorthand ≠ "" then "-" ++ f.shorthand ++ ", --" ++ f.name
    else "    --" ++ f.name
  let flagStr :=
    if f.valueType ≠ "bool" then
      let flagType :=
        match f.enum with
        | some m => if m.hasHelp then m.baseType else f.valueType
        | none => f.valueType
      flagStr ++ " " ++ theme.FlagType ("<" ++ flagTypeName flagType ++ ">")
    else flagStr
  let flagStr :=
    if f.envVar ≠ "" then flagStr ++ "  " ++ formatEnvVar getenv f.envVar theme
    else flagStr
  let descWidth : Int := if width - 10 ≤ 0 ∨ width = 0 then 0 else width - 10
  let wrapped := wrapText wordwrapString f.usage descWidth
  let lines := (splitOnChar '\n' wrapped.data).map String.mk
  let hasDefault := f.defValue != "" && f.defValue != "false" &&
    f.defValue != "0" && f.defValue != "[]"
  let annotType :=
    match f.enum with
    | some m => m.baseType
    | none => f.valueType
  let annot := formatDefaultValue f.defValue annotType theme.FlagDefault
  ["  " ++ theme.Flag flagStr]
    ++ descLoop theme hasDefault annot lines
    ++ (match f.enum with
        | some m =>
          if m.hasHelp then
            ["", "          " ++ theme.Description "Possible values:"]
              ++ m.entries.map (fun e =>
                if e.Help ≠ "" then
                  "          - " ++ theme.FlagType e.Name ++ ": " ++ theme.Description e.Help
                else "          - " ++ theme.FlagType e.Name)
          else []
        | none => [])

/-- `renderFlagList` of help.go over visible flags: the per-flag line blocks
separated by one blank line. -/
def renderFlagList (getenv : String → String) (wordwrapString : String → Int → String)
    (theme : GoTheme) (width : Int) : List HelpFlag → List String
  | [] => []
  | f :: rest =>
    renderFlag getenv wordwrapString theme width f
      ++ rest.flatMap (fun g => "" :: renderFlag getenv wordwrapString theme width g)

theorem descLoop_no_default (theme : GoTheme) (a1 a2 : String) :
    ∀ ls : List String, descLoop theme false a1 ls = descLoop theme false a2 ls
  | [] => rfl
  | [l] => by simp [descLoop]
  | l :: l' :: ls => by
    simp [descLoop, descLoop_no_default theme a1 a2 (l' :: ls)]

/-- C9: a flag whose serialized default is boolean `false`, the zero
integer `0`, or the empty collection `[]` renders without any default-value
annotation — its rendered lines are identical to those of the same flag with
any other suppressed default, so the default never reaches the output; a
string flag with default `info` renders the annotation `(default: "info")`
appended to the last usage line; concrete renders of `false`, `0` and `[]`
flags show the exact annotation-free output. -/
theorem C9_default_annotation :
    (∀ (getenv : String → String) (wordwrapString : String → Int → String)
       (theme : GoTheme) (width : Int) (f : HelpFlag) (d' : String),
      (f.defValue = "false" ∨ f.defValue = "0" ∨ f.defValue = "[]") →
      (d' = "false" ∨ d' = "0" ∨ d' = "[]" ∨ d' = "") →
      renderFlagList getenv wordwrapString theme width [f]
        = renderFlagList getenv wordwrapString theme width [{ f with defValue := d' }]) ∧
    renderFlagList (fun _ => "") (fun s _ => s) idTheme 0
      [⟨"level", "l", "info", "log level", "string", "", none⟩]
      = ["  -l, --level <string>", "          log level (default: \"info\")"] ∧
    renderFlagList (fun _ => "") (fun s _ => s) idTheme 0
      [⟨"check", "", "false", "check drift", "bool", "", none⟩]
      = ["      --check", "          check drift"] ∧
    renderFlagList (fun _ => "") (fun s _ => s) idTheme 0
      [⟨"count", "", "0", "how many", "int", "", none⟩]
      = ["      --count <int>", "          how many"] ∧
    renderFlagList (fun _ => "") (fun s _ => s) idTheme 0
      [⟨"tags", "", "[]", "tag list", "stringSlice", "", none⟩]
      = ["      --tags <strings>", "          tag list"] := by
  refine ⟨?_, by decide, by decide, by decide, by decide⟩
  have hbad : ∀ x : String, (x = "false" ∨ x = "0" ∨ x = "[]" ∨ x = "") →
      (x != "" && x != "false" && x != "0" && x != "[]") = false := by
    rintro x (rfl | rfl | rfl | rfl) <;> decide
  intro getenv wordwrapString theme width f d' h1 h2
  obtain ⟨nm, sh, dv, us, vt, ev, en⟩ := f
  simp only at h1
  have h1' := hbad dv (by
    rcases h1 with h | h | h
    exacts [Or.inl h, Or.inr (Or.inl h), Or.inr (Or.inr (Or.inl h))])
  have h2' := hbad d' h2
  simp only [renderFlagList, renderFlag, List.append_nil]
  rw [h1', h2']
  rw [descLoop_no_default theme
    (formatDefaultValue dv (match en with | some m => m.baseType | none => vt)
      theme.FlagDefault)
    (formatDefaultValue d' (match en with | some m => m.baseType | none => vt)
      theme.FlagDefault)]

/-- Witness for C9: the suppression part applied to a concrete boolean flag,
compared against the same flag with empty serialized default. -/
theorem C9_default_annotation_witness :
    renderFlagList (fun _ => "") (fun s _ => s) idTheme 0
      [⟨"check", "", "false", "check drift", "bool", "", none⟩]
      = renderFlagList (fun _ => "") (fun s _ => s) idTheme 0
        [⟨"check", "", "", "check drift", "bool", "", none⟩] :=
  C9_default_annotation.1 (fun _ => "") (fun s _ => s) idTheme 0
    ⟨"check", "", "false", "check drift", "bool", "", none⟩ ""
    (Or.inl rfl) (Or.inr (Or.inr (Or.inr rfl)))
